import Mathlib

/-!
Shallow embedding of `source/blender/functions/functions/array_execution.cpp`:
the array-execution runtime with its two strategies, the tuple-call
(boxed) strategy and the LLVM (compiled-batch) strategy.  Memory buffers are
modelled at byte granularity; the collaborator classes that live outside this
file (`Tuple` call-frames from `FN_tuple_call.hpp`, the `CodeBuilder` loop
emitter, `CompiledLLVM`, the global LLVM context helpers) are modelled from
the specification, as marked on each definition.
-/

namespace FN

/-- A raw byte buffer: a total map from byte address to byte value.
Models the `void *` buffers handed to `ArrayExecution::call`. -/
abbrev Buffer : Type := Nat → Nat

/-- Read `size` consecutive bytes starting at byte offset `off`. -/
def readBytes (buf : Buffer) (off size : Nat) : List Nat :=
  (List.range size).map (fun j => buf (off + j))

/-- Write the byte list `bytes` at byte offset `off`; all other bytes keep
their previous value. -/
def writeBytes (buf : Buffer) (off : Nat) (bytes : List Nat) : Buffer :=
  fun a => if off ≤ a ∧ a < off + bytes.length then bytes.getD (a - off) 0 else buf a

/-- A C++ type as this layer sees it: only its element byte size matters
(`type->extension<CPPTypeInfo>().size()`). -/
structure CPPType where
  size : Nat
deriving DecidableEq, Repr

/-- Semantics of a `TupleCallBody`: given the execution context and the list
of input values (each a byte list), either fail (`none`, modelling whatever
failure convention the boxed call uses) or produce the updated context and
the list of output values.  The context parameter models the
`ExecutionContext &` threaded through every call. -/
abbrev TupleCallBody (Ctx : Type) : Type :=
  Ctx → List (List Nat) → Option (Ctx × List (List Nat))

/-- Semantics of an `LLVMBuildIRBody` once compiled: a total map from context
and input values to updated context and output values (at the IR level the
emitted call instruction always returns its aggregate result). -/
abbrev LLVMBodyFn (Ctx : Type) : Type :=
  Ctx → List (List Nat) → Ctx × List (List Nat)

/-- The function descriptor (`SharedFunction`): ordered input/output type
lists plus the optional bodies (`has_body<TupleCallBody>()` /
`has_body<LLVMBuildIRBody>()`). -/
structure SharedFunction (Ctx : Type) where
  input_types : List CPPType
  output_types : List CPPType
  tuple_call_body : Option (TupleCallBody Ctx)
  llvm_body : Option (LLVMBodyFn Ctx)

def SharedFunction.input_amount {Ctx : Type} (f : SharedFunction Ctx) : Nat :=
  f.input_types.length

def SharedFunction.output_amount {Ctx : Type} (f : SharedFunction Ctx) : Nat :=
  f.output_types.length

/-- State of the abstract base class `ArrayExecution`: the descriptor plus
the type-size tables computed in the constructor. -/
structure ArrayExecution (Ctx : Type) where
  m_function : SharedFunction Ctx
  m_input_sizes : List Nat
  m_output_sizes : List Nat

/-- The `ArrayExecution` constructor: record the element byte size of every
input and output type, in order. -/
def ArrayExecution.make {Ctx : Type} (f : SharedFunction Ctx) : ArrayExecution Ctx :=
  { m_function := f
    m_input_sizes := f.input_types.map CPPType.size
    m_output_sizes := f.output_types.map CPPType.size }

/-- Result of one `call`: `assertFailed` models a `BLI_assert` firing (or a
tuple-layer contract violation), `bodyFailed` models a failure signalled by
the function body escaping the call (carrying the output buffers as written
so far and the context state at failure), `ok` is normal return carrying the
final output buffers and context. -/
inductive ExecResult (Ctx : Type) where
  | assertFailed
  | bodyFailed (outputs : List Buffer) (ctx : Ctx)
  | ok (outputs : List Buffer) (ctx : Ctx)

/-- Output buffers carried by a result, when the call got past its entry
assertions. -/
def ExecResult.outputs {Ctx : Type} : ExecResult Ctx → Option (List Buffer)
  | .assertFailed => none
  | .bodyFailed outs _ => some outs
  | .ok outs _ => some outs

/-- Modelled from the spec: a call-frame ("tuple", from the missing
`FN_tuple_call.hpp`) holds one optional typed value per slot; an empty slot
(`none`) owns nothing. -/
abbrev Frame : Type := List (Option (List Nat))

/-- Modelled from the spec: `FN_TUPLE_CALL_ALLOC_TUPLES` allocates a frame
whose slots are all empty. -/
def Frame.alloc (n : Nat) : Frame := List.replicate n none

/-- Modelled from the spec: the values of a frame whose slots are all
occupied (what the body reads from the input frame); reading an
uninitialized slot is a tuple-layer contract violation (`none`). -/
def Frame.values : Frame → Option (List (List Nat))
  | [] => some []
  | none :: _ => none
  | some v :: fr => (Frame.values fr).map (fun vs => v :: vs)

/-- Modelled from the spec: the per-slot `copy_in__dynamic` loop of the
tuple-call strategy.  Slot `k` receives a copy of the bytes of input `k`'s
element at byte offset `index * size_k`; the source buffers are only read,
never written. -/
def copyInAll (index : Nat) : Frame → List Nat → List Buffer → Frame
  | _ :: fr, sz :: szs, buf :: bufs =>
      some (readBytes buf (index * sz) sz) :: copyInAll index fr szs bufs
  | fr, _, _ => fr

/-- Modelled from the spec: the body fills every output slot of the output
frame with a value; slots beyond the produced values keep their content. -/
def fillFrame (fout : Frame) (outs : List (List Nat)) : Frame :=
  outs.map some ++ fout.drop outs.length

/-- Modelled from the spec: the per-slot `relocate_out__dynamic` loop of the
tuple-call strategy.  Each occupied slot `k` is destructively moved out into
output buffer `k` at byte offset `index * size_k`, leaving the slot empty;
an unoccupied slot, or a slot/size/buffer arity mismatch, is a tuple-layer
contract violation (`none`). -/
def relocateAll (index : Nat) : Frame → List Nat → List Buffer → Option (Frame × List Buffer)
  | [], [], [] => some ([], [])
  | some bytes :: fr, sz :: szs, buf :: bufs =>
      (relocateAll index fr szs bufs).map
        (fun p => (none :: p.1, writeBytes buf (index * sz) bytes :: p.2))
  | _, _, _ => none

/-- The values corresponding to one index, as the tuple-call strategy reads
them (and as the generated LLVM loop loads them): for every input `k`, the
`size_k` bytes at offset `index * size_k` of buffer `k`. -/
def readInputsAt (index : Nat) : List Nat → List Buffer → List (List Nat)
  | sz :: szs, buf :: bufs => readBytes buf (index * sz) sz :: readInputsAt index szs bufs
  | _, _ => []

/-- The per-index output writes shared by both strategies: output value `k`
is stored into output buffer `k` at byte offset `index * size_k`. -/
def writeOutputs (index : Nat) : List Nat → List (List Nat) → List Buffer → List Buffer
  | sz :: szs, v :: vs, buf :: bufs =>
      writeBytes buf (index * sz) v :: writeOutputs index szs vs bufs
  | _, _, bufs => bufs

/-- Intermediate state of the tuple-call strategy's loop over the indices:
either still running (carrying both call-frames, the output buffers and the
context), or stopped by a tuple-layer contract violation, or stopped by a
body failure (which propagates: once failed, later indices are never
attempted). -/
inductive TupleLoopState (Ctx : Type) where
  | running (fin fout : Frame) (outBufs : List Buffer) (ctx : Ctx)
  | afail
  | bfail (outBufs : List Buffer) (ctx : Ctx)

/-- One iteration of `TupleCallArrayExecution::call`'s `for (uint index :
indices)` loop: copy every input element into the input frame, invoke the
body, relocate every output slot into the output buffers.  A failure state
is absorbing, modelling propagation out of the loop. -/
def tupleStep {Ctx : Type} (body : TupleCallBody Ctx) (szsIn szsOut : List Nat)
    (inBufs : List Buffer) (st : TupleLoopState Ctx) (index : Nat) : TupleLoopState Ctx :=
  match st with
  | .running fin fout outBufs ctx =>
    let fin' := copyInAll index fin szsIn inBufs
    match fin'.values with
    | none => .afail
    | some ins =>
      match body ctx ins with
      | none => .bfail outBufs ctx
      | some (ctx', outs) =>
        let fout' := fillFrame fout outs
        match relocateAll index fout' szsOut outBufs with
        | none => .afail
        | some (fout'', outBufs') => .running fin' fout'' outBufs' ctx'
  | s => s

/-- The tuple-call (boxed) strategy object. -/
structure TupleCallArrayExecution (Ctx : Type) where
  base : ArrayExecution Ctx

/-- `TupleCallArrayExecution::call`: assert both arities, fetch the
`TupleCallBody`, allocate the two call-frames once, then run the loop over
the indices. -/
def TupleCallArrayExecution.call {Ctx : Type} (self : TupleCallArrayExecution Ctx)
    (indices : List Nat) (input_buffers : List Buffer) (output_buffers : List Buffer)
    (execution_context : Ctx) : ExecResult Ctx :=
  let input_amount := self.base.m_function.input_amount
  let output_amount := self.base.m_function.output_amount
  if input_amount = input_buffers.length ∧ output_amount = output_buffers.length then
    match self.base.m_function.tuple_call_body with
    | none => .assertFailed
    | some body =>
      let fn_in := Frame.alloc input_amount
      let fn_out := Frame.alloc output_amount
      match indices.foldl
          (tupleStep body self.base.m_input_sizes self.base.m_output_sizes input_buffers)
          (.running fn_in fn_out output_buffers execution_context) with
      | .running _ _ outs c => .ok outs c
      | .afail => .assertFailed
      | .bfail outs c => .bodyFailed outs c
  else .assertFailed

/-- `get_tuple_call_array_execution`: construction asserts
`has_body<TupleCallBody>()`. -/
def get_tuple_call_array_execution {Ctx : Type} (f : SharedFunction Ctx) :
    Option (TupleCallArrayExecution Ctx) :=
  match f.tuple_call_body with
  | some _ => some ⟨ArrayExecution.make f⟩
  | none => none

/-- Modelled from the spec: `CodeBuilder::CreateNIterationsLoop` (the loop
emitter is not part of this file's source).  The emitted loop runs its body
exactly `count` times, on iteration numbers `0, 1, ..., count - 1`, with no
other exit condition. -/
def nIterationsLoop {σ : Type} (count : Nat) (body : Nat → σ → σ) (s : σ) : σ :=
  (List.range count).foldl (fun st i => body i st) s

/-- Semantics of the native function emitted by
`LLVMArrayExecution::build_function_ir`, with the fixed five-parameter
signature `(count, index array, input-buffer array, output-buffer array,
context pointer)`: a loop of `count` iterations; iteration `i` loads
`indices[i]`, loads one element per input at stride `size_k` from that
index, calls the compiled body, and stores one element per output at stride
`size_k` at that index.  The per-type load/store hooks
(`build_load_ir__copy` / `build_store_ir__relocate`) and `CreateGEP` on the
strided pointers are modelled from the spec as byte reads/writes of
`size_k` bytes at offset `index * size_k`. -/
def generatedFunction {Ctx : Type} (body : LLVMBodyFn Ctx) (szsIn szsOut : List Nat)
    (count : Nat) (indices : List Nat) (input_buffers output_buffers : List Buffer)
    (context_ptr : Ctx) : List Buffer × Ctx :=
  nIterationsLoop count
    (fun i st =>
      let index := indices.getD i 0
      let ins := readInputsAt index szsIn input_buffers
      let r := body st.2 ins
      (writeOutputs index szsOut r.2 st.1, r.1))
    (output_buffers, context_ptr)

/-- Modelled from the spec: the owned compiled artifact (`CompiledLLVM`),
reduced to the semantics of its machine-code entry point
(`function_ptr()`). -/
structure CompiledLLVM (Ctx : Type) where
  function_ptr : Nat → List Nat → List Buffer → List Buffer → Ctx → List Buffer × Ctx

/-- The compiled-batch strategy object: the base state plus the compiled
function owned since construction. -/
structure LLVMArrayExecution (Ctx : Type) where
  base : ArrayExecution Ctx
  m_compiled_function : CompiledLLVM Ctx

/-- `LLVMArrayExecution::call`: cast the stored function pointer and invoke
it exactly once with the five translated parameters — `indices.size()`, the
index data, the input buffer array, the output buffer array, and the
address of the execution context.  No assertion and no code generation
happen here. -/
def LLVMArrayExecution.call {Ctx : Type} (self : LLVMArrayExecution Ctx)
    (indices : List Nat) (input_buffers : List Buffer) (output_buffers : List Buffer)
    (execution_context : Ctx) : ExecResult Ctx :=
  let r := self.m_compiled_function.function_ptr indices.length indices
    input_buffers output_buffers execution_context
  .ok r.1 r.2

/-- `get_precompiled_array_execution` / the `LLVMArrayExecution`
constructor: assert `has_body<LLVMBuildIRBody>()`, then compile eagerly —
the stored artifact is the generated batch function built from the
descriptor's compilable body and the size tables. -/
def get_precompiled_array_execution {Ctx : Type} (f : SharedFunction Ctx) :
    Option (LLVMArrayExecution Ctx) :=
  match f.llvm_body with
  | some body =>
    let base := ArrayExecution.make f
    some ⟨base, ⟨generatedFunction body base.m_input_sizes base.m_output_sizes⟩⟩
  | none => none

/-- Modelled from the spec: the state of the global LLVM/JIT context —
whether it is currently acquired by `compile()`. -/
structure JITContextState where
  acquired : Bool
deriving DecidableEq, Repr

/-- Modelled from the spec: `aquire_llvm_context`. -/
def aquire_llvm_context (_st : JITContextState) : JITContextState :=
  { acquired := true }

/-- Modelled from the spec: `release_llvm_context`. -/
def release_llvm_context (_st : JITContextState) : JITContextState :=
  { acquired := false }

/-- `LLVMArrayExecution::compile`, instrumented with the JIT-context state.
The statement sequence is literal: acquire the context, build the module
and IR, JIT-compile (`CompiledLLVM::FromIR` — modelled from the spec as a
fallible step, since per §7 code generation or JIT compilation may fail and
propagate as a construction failure), then release the context.  A failure
propagates out of `compile()` immediately, carrying the context state as it
is at that moment; only the success path reaches the release call. -/
def compileStep {A : Type} (fromIR : Option A) (st : JITContextState) :
    Except JITContextState (JITContextState × A) :=
  let st1 := aquire_llvm_context st
  match fromIR with
  | none => .error st1
  | some artifact => .ok (release_llvm_context st1, artifact)

/-- A boxed-call body realizing a pure input-to-output mapping `g`: no
effect on the context, never fails. -/
def pureTupleBody {Ctx : Type} (g : List (List Nat) → List (List Nat)) : TupleCallBody Ctx :=
  fun ctx ins => some (ctx, g ins)

/-- A compile-to-native body realizing the same pure mapping `g`. -/
def pureLLVMBody {Ctx : Type} (g : List (List Nat) → List (List Nat)) : LLVMBodyFn Ctx :=
  fun ctx ins => (ctx, g ins)

/-- A descriptor for a pure function `g` carrying both a boxed-call body and
a compile-to-native body for it. -/
def pureDescriptor {Ctx : Type} (g : List (List Nat) → List (List Nat))
    (tysIn tysOut : List CPPType) : SharedFunction Ctx :=
  { input_types := tysIn
    output_types := tysOut
    tuple_call_body := some (pureTupleBody g)
    llvm_body := some (pureLLVMBody g) }

/-- The tuple-call strategy built over a descriptor (as
`get_tuple_call_array_execution` builds it when the body check passes). -/
def tupleStrategyOf {Ctx : Type} (f : SharedFunction Ctx) : TupleCallArrayExecution Ctx :=
  ⟨ArrayExecution.make f⟩

/-- Instrumentation: a boxed-call body that additionally counts its own
invocations in the context. -/
def countTupleBody {Ctx : Type} (b : TupleCallBody Ctx) : TupleCallBody (Ctx × Nat) :=
  fun p ins => (b p.1 ins).map (fun r => ((r.1, p.2 + 1), r.2))

/-- Instrumentation: a boxed-call body that additionally records the input
values of each of its invocations, in order, in the context. -/
def recordTupleBody {Ctx : Type} (b : TupleCallBody Ctx) :
    TupleCallBody (Ctx × List (List (List Nat))) :=
  fun p ins => (b p.1 ins).map (fun r => ((r.1, p.2 ++ [ins]), r.2))

/-- Instrumentation: a compiled body that additionally counts its own
invocations in the context. -/
def countLLVMBody {Ctx : Type} (b : LLVMBodyFn Ctx) : LLVMBodyFn (Ctx × Nat) :=
  fun p ins =>
    let r := b p.1 ins
    ((r.1, p.2 + 1), r.2)

/-- Instrumentation: a compiled-function handle that additionally counts its
own invocations in the context. -/
def countCompiledFn {Ctx : Type} (g : CompiledLLVM Ctx) : CompiledLLVM (Ctx × Nat) :=
  ⟨fun count indices ins outs p =>
    let r := g.function_ptr count indices ins outs p.1
    (r.1, (r.2, p.2 + 1))⟩

/-- The default (absent) buffer used by positional `getD` access. -/
def bufferDflt : Buffer := fun _ => 0

/-- The output buffers carried by an intermediate loop state (none once a
tuple-layer contract violation occurred). -/
def TupleLoopState.outBufsOf {Ctx : Type} : TupleLoopState Ctx → Option (List Buffer)
  | .running _ _ o _ => some o
  | .afail => none
  | .bfail o _ => some o

/-- A descriptor holding just a boxed-call body. -/
def tupleOnlyDescriptor {Ctx : Type} (b : TupleCallBody Ctx) (tysIn tysOut : List CPPType) :
    SharedFunction Ctx :=
  { input_types := tysIn
    output_types := tysOut
    tuple_call_body := some b
    llvm_body := none }

/-- A descriptor holding just a compile-to-native body. -/
def llvmOnlyDescriptor {Ctx : Type} (b : LLVMBodyFn Ctx) (tysIn tysOut : List CPPType) :
    SharedFunction Ctx :=
  { input_types := tysIn
    output_types := tysOut
    tuple_call_body := none
    llvm_body := some b }

/-- Byte address `a` lies outside the element region of logical index `i`
in a buffer of element byte size `sz`. -/
abbrev OutsideRegion (i sz a : Nat) : Prop := ¬ (i * sz ≤ a ∧ a < i * sz + sz)

/-- A boxed-call body whose outputs always match the output size table,
positionally and in byte length (what the typed slots of the C++ output
tuple guarantee). -/
def WellSizedTupleBody {Ctx : Type} (body : TupleCallBody Ctx) (szsOut : List Nat) : Prop :=
  ∀ c ins c' outs, body c ins = some (c', outs) →
    List.Forall₂ (fun v sz => v.length = sz) outs szsOut

/-- A compiled body whose outputs always match the output size table. -/
def WellSizedLLVMBody {Ctx : Type} (body : LLVMBodyFn Ctx) (szsOut : List Nat) : Prop :=
  ∀ c ins, List.Forall₂ (fun v sz => v.length = sz) (body c ins).2 szsOut

/-- Two input-buffer lists agree on every byte that executing the index
list `l` may read: for every input position `k` and every index `i ∈ l`,
the `size_k` bytes at offset `i * size_k`. -/
def InputsAgree (szs : List Nat) (bufs bufs' : List Buffer) (l : List Nat) : Prop :=
  ∀ k, ∀ i ∈ l, ∀ b, b < szs.getD k 0 →
    (bufs.getD k bufferDflt) (i * szs.getD k 0 + b)
      = (bufs'.getD k bufferDflt) (i * szs.getD k 0 + b)

/-- The batch effect both strategies are supposed to have for a pure body
`g`: fold over the indices, writing `g` of the read inputs each time. -/
def pureBatch (g : List (List Nat) → List (List Nat)) (szsIn szsOut : List Nat)
    (inBufs : List Buffer) (l : List Nat) (outBufs : List Buffer) : List Buffer :=
  l.foldl (fun bufs idx => writeOutputs idx szsOut (g (readInputsAt idx szsIn inBufs)) bufs)
    outBufs

theorem readBytes_length (buf : Buffer) (off n : Nat) : (readBytes buf off n).length = n := by
  simp [readBytes]

theorem readBytes_congr {buf buf' : Buffer} {off n : Nat}
    (h : ∀ b, b < n → buf (off + b) = buf' (off + b)) :
    readBytes buf off n = readBytes buf' off n := by
  unfold readBytes
  exact List.map_congr_left (fun b hb => h b (List.mem_range.mp hb))

theorem writeBytes_outside {off a : Nat} (buf : Buffer) (v : List Nat)
    (h : ¬ (off ≤ a ∧ a < off + v.length)) : writeBytes buf off v a = buf a := by
  simp [writeBytes, h]

theorem readBytes_writeBytes (buf : Buffer) (off : Nat) (v : List Nat) :
    readBytes (writeBytes buf off v) off v.length = v := by
  unfold readBytes writeBytes
  apply List.ext_getElem
  · simp
  · intro i h1 h2
    simp only [List.getElem_map, List.getElem_range]
    have hin : off ≤ off + i ∧ off + i < off + v.length := by
      constructor
      · exact Nat.le_add_right _ _
      · have : i < v.length := by simpa using h2
        omega
    simp only [if_pos hin]
    have : off + i - off = i := by omega
    rw [this]
    exact List.getD_eq_getElem v 0 (by simpa using h2)

theorem copyInAll_length (idx : Nat) :
    ∀ (fr : Frame) (szs : List Nat) (bufs : List Buffer),
      (copyInAll idx fr szs bufs).length = fr.length := by
  intro fr
  induction fr with
  | nil => intro szs bufs; cases szs <;> cases bufs <;> simp [copyInAll]
  | cons s fr ih =>
    intro szs bufs
    cases szs with
    | nil => simp [copyInAll]
    | cons sz szs =>
      cases bufs with
      | nil => simp [copyInAll]
      | cons buf bufs => simp [copyInAll, ih]

theorem copyInAll_values (idx : Nat) :
    ∀ (fr : Frame) (szs : List Nat) (bufs : List Buffer),
      fr.length = szs.length → szs.length = bufs.length →
      (copyInAll idx fr szs bufs).values = some (readInputsAt idx szs bufs) := by
  intro fr
  induction fr with
  | nil =>
    intro szs bufs h1 h2
    have : szs = [] := List.eq_nil_of_length_eq_zero h1.symm
    subst this
    have : bufs = [] := List.eq_nil_of_length_eq_zero h2.symm
    subst this
    simp [copyInAll, Frame.values, readInputsAt]
  | cons s fr ih =>
    intro szs bufs h1 h2
    cases szs with
    | nil => simp at h1
    | cons sz szs =>
      cases bufs with
      | nil => simp at h2
      | cons buf bufs =>
        simp only [copyInAll, Frame.values, readInputsAt]
        rw [ih szs bufs (by simpa using h1) (by simpa using h2)]
        rfl

theorem relocateAll_some (idx : Nat) :
    ∀ (fr : Frame) (szs : List Nat) (bufs : List Buffer) (fr' : Frame) (bufs' : List Buffer),
      relocateAll idx fr szs bufs = some (fr', bufs') →
      fr' = List.replicate fr.length none ∧ bufs'.length = bufs.length ∧
        fr.length = szs.length ∧ szs.length = bufs.length := by
  intro fr
  induction fr with
  | nil =>
    intro szs bufs fr' bufs' h
    cases szs <;> cases bufs <;> simp [relocateAll] at h
    obtain ⟨h1, h2⟩ := h
    subst h1; subst h2
    simp
  | cons s fr ih =>
    intro szs bufs fr' bufs' h
    cases s with
    | none => cases szs <;> cases bufs <;> simp [relocateAll] at h
    | some v =>
      cases szs with
      | nil => simp [relocateAll] at h
      | cons sz szs =>
        cases bufs with
        | nil => simp [relocateAll] at h
        | cons buf bufs =>
          simp only [relocateAll, Option.map_eq_some'] at h
          obtain ⟨⟨fr₀, bufs₀⟩, hrec, heq⟩ := h
          obtain ⟨e1, e2, e3, e4⟩ := ih szs bufs fr₀ bufs₀ hrec
          cases heq
          refine ⟨?_, ?_, ?_, ?_⟩
          · simp [e1, List.replicate_succ]
          · simp [e2]
          · simp [e3]
          · simp [e4]

theorem relocateAll_map_some (idx : Nat) :
    ∀ (vs : List (List Nat)) (szs : List Nat) (bufs : List Buffer),
      vs.length = szs.length → szs.length = bufs.length →
      relocateAll idx (vs.map some) szs bufs
        = some (List.replicate vs.length none, writeOutputs idx szs vs bufs) := by
  intro vs
  induction vs with
  | nil =>
    intro szs bufs h1 h2
    have : szs = [] := List.eq_nil_of_length_eq_zero h1.symm
    subst this
    have : bufs = [] := List.eq_nil_of_length_eq_zero h2.symm
    subst this
    simp [relocateAll, writeOutputs]
  | cons v vs ih =>
    intro szs bufs h1 h2
    cases szs with
    | nil => simp at h1
    | cons sz szs =>
      cases bufs with
      | nil => simp at h2
      | cons buf bufs =>
        simp only [List.map_cons, relocateAll,
          ih szs bufs (by simpa using h1) (by simpa using h2)]
        simp [writeOutputs, List.replicate_succ]

theorem fillFrame_alloc {outs : List (List Nat)} {n : Nat} (h : outs.length = n) :
    fillFrame (Frame.alloc n) outs = outs.map some := by
  unfold fillFrame Frame.alloc
  rw [h, List.drop_eq_nil_of_le (by simp), List.append_nil]

theorem writeOutputs_length (idx : Nat) :
    ∀ (szs : List Nat) (vs : List (List Nat)) (bufs : List Buffer),
      (writeOutputs idx szs vs bufs).length = bufs.length := by
  intro szs
  induction szs with
  | nil => intro vs bufs; cases vs <;> cases bufs <;> simp [writeOutputs]
  | cons sz szs ih =>
    intro vs bufs
    cases vs with
    | nil => simp [writeOutputs]
    | cons v vs =>
      cases bufs with
      | nil => simp [writeOutputs]
      | cons buf bufs => simp [writeOutputs, ih]

theorem writeOutputs_getD_outside (idx : Nat) :
    ∀ (szs : List Nat) (vs : List (List Nat)) (bufs : List Buffer) (k a : Nat),
      List.Forall₂ (fun v sz => v.length = sz) vs szs →
      OutsideRegion idx (szs.getD k 0) a →
      (writeOutputs idx szs vs bufs).getD k bufferDflt a = bufs.getD k bufferDflt a := by
  intro szs
  induction szs with
  | nil =>
    intro vs bufs k a hf _
    have : vs = [] := by cases hf; rfl
    subst this
    cases bufs <;> simp [writeOutputs]
  | cons sz szs ih =>
    intro vs bufs k a hf hout
    cases hf with
    | cons hlen htail =>
      rename_i v vs
      cases bufs with
      | nil => simp [writeOutputs]
      | cons buf bufs =>
        simp only [writeOutputs]
        cases k with
        | zero =>
          simp only [List.getD_cons_zero]
          apply writeBytes_outside
          rw [hlen]
          simpa [OutsideRegion] using hout
        | succ k =>
          simp only [List.getD_cons_succ]
          exact ih vs bufs k a htail (by simpa using hout)

theorem writeOutputs_getD (idx : Nat) :
    ∀ (szs : List Nat) (vs : List (List Nat)) (bufs : List Buffer) (k : Nat),
      k < szs.length → k < bufs.length → k < vs.length →
      (writeOutputs idx szs vs bufs).getD k bufferDflt
        = writeBytes (bufs.getD k bufferDflt) (idx * szs.getD k 0) (vs.getD k []) := by
  intro szs
  induction szs with
  | nil => intro vs bufs k h1 _ _; simp at h1
  | cons sz szs ih =>
    intro vs bufs k h1 h2 h3
    cases vs with
    | nil => simp at h3
    | cons v vs =>
      cases bufs with
      | nil => simp at h2
      | cons buf bufs =>
        cases k with
        | zero => simp [writeOutputs]
        | succ k =>
          simp only [writeOutputs, List.getD_cons_succ]
          exact ih vs bufs k (by simpa using h1) (by simpa using h2) (by simpa using h3)

theorem readInputsAt_congr {l : List Nat} {idx : Nat} (hidx : idx ∈ l) :
    ∀ (szs : List Nat) (bufs bufs' : List Buffer),
      bufs.length = bufs'.length →
      InputsAgree szs bufs bufs' l →
      readInputsAt idx szs bufs = readInputsAt idx szs bufs' := by
  intro szs
  induction szs with
  | nil => intro bufs bufs' _ _; cases bufs <;> cases bufs' <;> simp [readInputsAt]
  | cons sz szs ih =>
    intro bufs bufs' hlen hag
    cases bufs with
    | nil =>
      have : bufs' = [] := List.eq_nil_of_length_eq_zero hlen.symm
      subst this
      rfl
    | cons buf bufs =>
      cases bufs' with
      | nil => simp at hlen
      | cons buf' bufs' =>
        simp only [readInputsAt]
        have h1 : readBytes buf (idx * sz) sz = readBytes buf' (idx * sz) sz := by
          apply readBytes_congr
          intro b hb
          have := hag 0 idx hidx b (by simpa using hb)
          simpa using this
        have h2 : readInputsAt idx szs bufs = readInputsAt idx szs bufs' := by
          apply ih bufs bufs' (by simpa using hlen)
          intro k i hi b hb
          have := hag (k + 1) i hi b (by simpa using hb)
          simpa using this
        rw [h1, h2]

theorem forall₂_getD {α β : Type} {R : α → β → Prop} {l₁ : List α} {l₂ : List β}
    (h : List.Forall₂ R l₁ l₂) (k : Nat) (hk : k < l₁.length) (d₁ : α) (d₂ : β) :
    R (l₁.getD k d₁) (l₂.getD k d₂) := by
  induction h generalizing k with
  | nil => simp at hk
  | cons hR htail ih =>
    cases k with
    | zero => simpa using hR
    | succ k => simpa using ih k (by simpa using hk)

theorem relocateAll_slots_some {idx : Nat} :
    ∀ {fr : Frame} {szs : List Nat} {bufs : List Buffer} {p : Frame × List Buffer},
      relocateAll idx fr szs bufs = some p → ¬ (none ∈ fr) := by
  intro fr
  induction fr with
  | nil => intro szs bufs p _; simp
  | cons s fr ih =>
    intro szs bufs p h
    cases s with
    | none => cases szs <;> cases bufs <;> simp [relocateAll] at h
    | some v =>
      cases szs with
      | nil => simp [relocateAll] at h
      | cons sz szs =>
        cases bufs with
        | nil => simp [relocateAll] at h
        | cons buf bufs =>
          simp only [relocateAll, Option.map_eq_some'] at h
          obtain ⟨q, hrec, _⟩ := h
          simpa using ih hrec

theorem fillFrame_length (n : Nat) (vs : List (List Nat)) :
    (fillFrame (Frame.alloc n) vs).length = vs.length + (n - vs.length) := by
  simp [fillFrame, Frame.alloc]

theorem fillFrame_none_mem {n : Nat} {vs : List (List Nat)} (h : vs.length < n) :
    none ∈ fillFrame (Frame.alloc n) vs := by
  unfold fillFrame Frame.alloc
  apply List.mem_append_right
  have hlen : ((List.replicate n (none : Option (List Nat))).drop vs.length).length
      = n - vs.length := by simp
  have hpos : 0 < ((List.replicate n (none : Option (List Nat))).drop vs.length).length := by
    omega
  obtain ⟨x, hx⟩ := List.exists_mem_of_length_pos hpos
  have : x = none := List.eq_of_mem_replicate (List.mem_of_mem_drop hx)
  rw [this] at hx
  exact hx

/-- Inversion of one successful loop iteration of the tuple-call strategy,
started (as every iteration is) with an all-empty output frame: the body
was consulted exactly once on the values copied in from the input buffers,
it produced exactly one value per output slot, and the buffers were updated
by the positional strided writes. -/
theorem tupleStep_running_eq {Ctx : Type} {body : TupleCallBody Ctx} {szsIn szsOut : List Nat}
    {inBufs : List Buffer} {fin : Frame} {outs : List Buffer} {c : Ctx} {idx : Nat}
    {fin' fout' : Frame} {outs' : List Buffer} {c' : Ctx}
    (h : tupleStep body szsIn szsOut inBufs
        (.running fin (Frame.alloc szsOut.length) outs c) idx = .running fin' fout' outs' c') :
    ∃ ins vs, (copyInAll idx fin szsIn inBufs).values = some ins ∧
      body c ins = some (c', vs) ∧ vs.length = szsOut.length ∧ outs.length = szsOut.length ∧
      fin' = copyInAll idx fin szsIn inBufs ∧ fout' = Frame.alloc szsOut.length ∧
      outs' = writeOutputs idx szsOut vs outs := by
  simp only [tupleStep] at h
  cases hv : (copyInAll idx fin szsIn inBufs).values with
  | none => simp only [hv] at h; exact absurd h (by simp)
  | some ins =>
    simp only [hv] at h
    cases hb : body c ins with
    | none => simp only [hb] at h; exact absurd h (by simp)
    | some r =>
      obtain ⟨c₀, vs⟩ := r
      simp only [hb] at h
      cases hr : relocateAll idx (fillFrame (Frame.alloc szsOut.length) vs) szsOut outs with
      | none => simp only [hr] at h; exact absurd h (by simp)
      | some p =>
        obtain ⟨fr₀, bufs₀⟩ := p
        simp only [hr, TupleLoopState.running.injEq] at h
        obtain ⟨h1, h2, h3, h4⟩ := h
        obtain ⟨e1, e2, e3, e4⟩ := relocateAll_some idx _ szsOut outs fr₀ bufs₀ hr
        have hnone := relocateAll_slots_some hr
        have hvslen : vs.length = szsOut.length := by
          by_cases hlt : vs.length < szsOut.length
          · exact absurd (fillFrame_none_mem hlt) hnone
          · have := fillFrame_length szsOut.length vs
            omega
        have hfill : fillFrame (Frame.alloc szsOut.length) vs = vs.map some :=
          fillFrame_alloc hvslen
        rw [hfill] at hr
        rw [relocateAll_map_some idx vs szsOut outs hvslen (by omega)] at hr
        simp only [Option.some.injEq, Prod.mk.injEq] at hr
        obtain ⟨hfr, hbufs⟩ := hr
        refine ⟨ins, vs, rfl, ?_, hvslen, by omega, h1.symm, ?_, ?_⟩
        · rw [hb, h4]
        · rw [← h2, ← hfr, hvslen]; rfl
        · rw [← h3, ← hbufs]

/-- Forward form: a loop iteration whose body call succeeds with one value
per output slot. -/
theorem tupleStep_run_of {Ctx : Type} {body : TupleCallBody Ctx} {szsIn szsOut : List Nat}
    {inBufs : List Buffer} {fin : Frame} {outs : List Buffer} {c c' : Ctx} {idx : Nat}
    {ins vs : List (List Nat)}
    (hv : (copyInAll idx fin szsIn inBufs).values = some ins)
    (hb : body c ins = some (c', vs))
    (hvs : vs.length = szsOut.length) (houts : outs.length = szsOut.length) :
    tupleStep body szsIn szsOut inBufs (.running fin (Frame.alloc szsOut.length) outs c) idx
      = .running (copyInAll idx fin szsIn inBufs) (Frame.alloc szsOut.length)
          (writeOutputs idx szsOut vs outs) c' := by
  simp only [tupleStep, hv, hb]
  rw [fillFrame_alloc hvs, relocateAll_map_some idx vs szsOut outs hvs (by omega)]
  simp only [hvs, Frame.alloc]

/-- A loop iteration whose body call fails stops with the buffers as
already written. -/
theorem tupleStep_run_fail {Ctx : Type} {body : TupleCallBody Ctx} {szsIn szsOut : List Nat}
    {inBufs : List Buffer} {fin fout : Frame} {outs : List Buffer} {c : Ctx} {idx : Nat}
    {ins : List (List Nat)}
    (hv : (copyInAll idx fin szsIn inBufs).values = some ins)
    (hb : body c ins = none) :
    tupleStep body szsIn szsOut inBufs (.running fin fout outs c) idx = .bfail outs c := by
  simp only [tupleStep, hv, hb]

theorem foldl_tupleStep_afail {Ctx : Type} (body : TupleCallBody Ctx) (szsIn szsOut : List Nat)
    (inBufs : List Buffer) (l : List Nat) :
    l.foldl (tupleStep body szsIn szsOut inBufs) .afail = .afail := by
  induction l with
  | nil => rfl
  | cons idx l ih => simpa [tupleStep] using ih

theorem foldl_tupleStep_bfail {Ctx : Type} (body : TupleCallBody Ctx) (szsIn szsOut : List Nat)
    (inBufs : List Buffer) (l : List Nat) (outs : List Buffer) (c : Ctx) :
    l.foldl (tupleStep body szsIn szsOut inBufs) (.bfail outs c) = .bfail outs c := by
  induction l with
  | nil => rfl
  | cons idx l ih => simpa [tupleStep] using ih

/-- Loop invariant of the tuple-call strategy: as long as the loop is still
running, the input frame keeps its allocated slot count, the output frame
is back to all-empty (so it is safely reusable for the next index), and the
output buffer list keeps its length. -/
theorem tupleFold_running_inv {Ctx : Type} {body : TupleCallBody Ctx} {szsIn szsOut : List Nat}
    {inBufs : List Buffer} :
    ∀ (l : List Nat) (fin : Frame) (outs : List Buffer) (c : Ctx)
      (fin1 fout1 : Frame) (outs1 : List Buffer) (c1 : Ctx),
      l.foldl (tupleStep body szsIn szsOut inBufs)
          (.running fin (Frame.alloc szsOut.length) outs c) = .running fin1 fout1 outs1 c1 →
      fin1.length = fin.length ∧ fout1 = Frame.alloc szsOut.length ∧
        outs1.length = outs.length := by
  intro l
  induction l with
  | nil =>
    intro fin outs c fin1 fout1 outs1 c1 h
    simp only [List.foldl_nil, TupleLoopState.running.injEq] at h
    obtain ⟨h1, h2, h3, _⟩ := h
    exact ⟨by rw [h1], h2.symm, by rw [h3]⟩
  | cons idx l ih =>
    intro fin outs c fin1 fout1 outs1 c1 h
    rw [List.foldl_cons] at h
    cases hs : tupleStep body szsIn szsOut inBufs
        (.running fin (Frame.alloc szsOut.length) outs c) idx with
    | running fin' fout' outs' c' =>
      rw [hs] at h
      obtain ⟨ins, vs, _, _, _, _, hfin', hfout', houts'⟩ := tupleStep_running_eq hs
      rw [hfout'] at h
      obtain ⟨i1, i2, i3⟩ := ih fin' outs' c' fin1 fout1 outs1 c1 h
      refine ⟨?_, i2, ?_⟩
      · rw [i1, hfin', copyInAll_length]
      · rw [i3, houts', writeOutputs_length]
    | afail =>
      rw [hs, foldl_tupleStep_afail] at h
      exact absurd h (by simp)
    | bfail o cc =>
      rw [hs, foldl_tupleStep_bfail] at h
      exact absurd h (by simp)

theorem nIterationsLoop_indices {σ : Type} (g : Nat → σ → σ) :
    ∀ (l : List Nat) (s : σ),
      nIterationsLoop l.length (fun i st => g (l.getD i 0) st) s
        = l.foldl (fun st x => g x st) s := by
  intro l
  induction l with
  | nil => intro s; rfl
  | cons x xs ih =>
    intro s
    unfold nIterationsLoop
    rw [List.length_cons, List.range_succ_eq_map, List.foldl_cons, List.foldl_map]
    simp only [List.getD_cons_zero, List.getD_cons_succ]
    exact ih (g x s)

theorem generatedFunction_foldl {Ctx : Type} (body : LLVMBodyFn Ctx) (szsIn szsOut : List Nat)
    (l : List Nat) (ins outs : List Buffer) (c : Ctx) :
    generatedFunction body szsIn szsOut l.length l ins outs c
      = l.foldl (fun st idx =>
          (writeOutputs idx szsOut (body st.2 (readInputsAt idx szsIn ins)).2 st.1,
            (body st.2 (readInputsAt idx szsIn ins)).1)) (outs, c) :=
  nIterationsLoop_indices
    (fun idx st =>
      (writeOutputs idx szsOut (body st.2 (readInputsAt idx szsIn ins)).2 st.1,
        (body st.2 (readInputsAt idx szsIn ins)).1)) l (outs, c)

theorem pureBatch_cons (g : List (List Nat) → List (List Nat)) (szsIn szsOut : List Nat)
    (ins : List Buffer) (idx : Nat) (l : List Nat) (outs : List Buffer) :
    pureBatch g szsIn szsOut ins (idx :: l) outs
      = pureBatch g szsIn szsOut ins l
          (writeOutputs idx szsOut (g (readInputsAt idx szsIn ins)) outs) := rfl

theorem pureBatch_append (g : List (List Nat) → List (List Nat)) (szsIn szsOut : List Nat)
    (ins : List Buffer) (l : List Nat) (j : Nat) (outs : List Buffer) :
    pureBatch g szsIn szsOut ins (l ++ [j]) outs
      = writeOutputs j szsOut (g (readInputsAt j szsIn ins))
          (pureBatch g szsIn szsOut ins l outs) := by
  simp [pureBatch, List.foldl_append]

theorem pureBatch_length (g : List (List Nat) → List (List Nat)) (szsIn szsOut : List Nat)
    (ins : List Buffer) :
    ∀ (l : List Nat) (outs : List Buffer),
      (pureBatch g szsIn szsOut ins l outs).length = outs.length := by
  intro l
  induction l with
  | nil => intro outs; rfl
  | cons idx l ih =>
    intro outs
    rw [pureBatch_cons, ih, writeOutputs_length]

theorem llvmFold_pure {Ctx : Type} (g : List (List Nat) → List (List Nat))
    (szsIn szsOut : List Nat) (ins : List Buffer) :
    ∀ (l : List Nat) (outs : List Buffer) (c : Ctx),
      l.foldl (fun st idx =>
          (writeOutputs idx szsOut (pureLLVMBody g st.2 (readInputsAt idx szsIn ins)).2 st.1,
            (pureLLVMBody g st.2 (readInputsAt idx szsIn ins)).1)) (outs, c)
        = (pureBatch g szsIn szsOut ins l outs, c) := by
  intro l
  induction l with
  | nil => intro outs c; rfl
  | cons idx l ih =>
    intro outs c
    rw [List.foldl_cons, pureBatch_cons]
    exact ih _ _

theorem tupleFold_pure {Ctx : Type} (g : List (List Nat) → List (List Nat))
    (szsIn szsOut : List Nat) (inBufs : List Buffer)
    (hbufs : inBufs.length = szsIn.length)
    (hg : ∀ x, (g x).length = szsOut.length) :
    ∀ (l : List Nat) (fin : Frame) (outs : List Buffer) (c : Ctx),
      fin.length = szsIn.length → outs.length = szsOut.length →
      ∃ fin', l.foldl (tupleStep (pureTupleBody g) szsIn szsOut inBufs)
          (.running fin (Frame.alloc szsOut.length) outs c)
        = .running fin' (Frame.alloc szsOut.length) (pureBatch g szsIn szsOut inBufs l outs) c
          ∧ fin'.length = szsIn.length := by
  intro l
  induction l with
  | nil =>
    intro fin outs c hfin houts
    exact ⟨fin, by simp [pureBatch], hfin⟩
  | cons idx l ih =>
    intro fin outs c hfin houts
    rw [List.foldl_cons,
      tupleStep_run_of (copyInAll_values idx fin szsIn inBufs hfin hbufs.symm) rfl (hg _) houts]
    obtain ⟨fin', h1, h2⟩ := ih (copyInAll idx fin szsIn inBufs)
      (writeOutputs idx szsOut (g (readInputsAt idx szsIn inBufs)) outs) c
      (by rw [copyInAll_length, hfin]) (by rw [writeOutputs_length, houts])
    exact ⟨fin', by rw [pureBatch_cons]; exact h1, h2⟩

theorem tupleCall_unfold {Ctx : Type} {f : SharedFunction Ctx} {body : TupleCallBody Ctx}
    (hb : f.tuple_call_body = some body) (l : List Nat) (ins outs : List Buffer) (c : Ctx)
    (har : f.input_amount = ins.length ∧ f.output_amount = outs.length) :
    (tupleStrategyOf f).call l ins outs c
      = match l.foldl (tupleStep body (f.input_types.map CPPType.size)
            (f.output_types.map CPPType.size) ins)
          (.running (Frame.alloc f.input_amount) (Frame.alloc f.output_amount) outs c) with
        | .running _ _ o cc => .ok o cc
        | .afail => .assertFailed
        | .bfail o cc => .bodyFailed o cc := by
  simp only [TupleCallArrayExecution.call, tupleStrategyOf, ArrayExecution.make]
  rw [if_pos har]
  simp only [hb]

theorem tupleCall_assert {Ctx : Type} (f : SharedFunction Ctx) (l : List Nat)
    (ins outs : List Buffer) (c : Ctx)
    (har : ¬ (f.input_amount = ins.length ∧ f.output_amount = outs.length)) :
    (tupleStrategyOf f).call l ins outs c = .assertFailed := by
  simp only [TupleCallArrayExecution.call, tupleStrategyOf, ArrayExecution.make]
  rw [if_neg har]

theorem tupleCall_ok_inv {Ctx : Type} {f : SharedFunction Ctx} {body : TupleCallBody Ctx}
    (hb : f.tuple_call_body = some body) {l : List Nat} {ins outs : List Buffer} {c : Ctx}
    {outs1 : List Buffer} {c1 : Ctx}
    (h : (tupleStrategyOf f).call l ins outs c = .ok outs1 c1) :
    (f.input_amount = ins.length ∧ f.output_amount = outs.length) ∧
    ∃ fin1 fout1, l.foldl (tupleStep body (f.input_types.map CPPType.size)
          (f.output_types.map CPPType.size) ins)
        (.running (Frame.alloc f.input_amount) (Frame.alloc f.output_amount) outs c)
      = .running fin1 fout1 outs1 c1 := by
  by_cases har : f.input_amount = ins.length ∧ f.output_amount = outs.length
  · refine ⟨har, ?_⟩
    rw [tupleCall_unfold hb l ins outs c har] at h
    cases hres : l.foldl (tupleStep body (f.input_types.map CPPType.size)
          (f.output_types.map CPPType.size) ins)
        (.running (Frame.alloc f.input_amount) (Frame.alloc f.output_amount) outs c) with
    | running fin1 fout1 o cc =>
      rw [hres] at h
      simp only [ExecResult.ok.injEq] at h
      obtain ⟨ho, hc⟩ := h
      subst ho
      subst hc
      exact ⟨fin1, fout1, rfl⟩
    | afail =>
      rw [hres] at h
      exact absurd h (by simp)
    | bfail o cc =>
      rw [hres] at h
      exact absurd h (by simp)
  · rw [tupleCall_assert f l ins outs c har] at h
    exact absurd h (by simp)

theorem llvmCall_unfold {Ctx : Type} (strat : LLVMArrayExecution Ctx) (l : List Nat)
    (ins outs : List Buffer) (c : Ctx) :
    strat.call l ins outs c
      = .ok (strat.m_compiled_function.function_ptr l.length l ins outs c).1
          (strat.m_compiled_function.function_ptr l.length l ins outs c).2 := rfl

theorem foldl_proj_succ {σ α : Type} (p : σ → Nat) (step : σ → α → σ)
    (h : ∀ s x, p (step s x) = p s + 1) :
    ∀ (l : List α) (s : σ), p (l.foldl step s) = p s + l.length := by
  intro l
  induction l with
  | nil => intro s; simp
  | cons x xs ih =>
    intro s
    rw [List.foldl_cons, ih, h]
    simp only [List.length_cons]
    omega

theorem tupleStep_bfail_eq {Ctx : Type} {body : TupleCallBody Ctx} {szsIn szsOut : List Nat}
    {inBufs : List Buffer} {fin fout : Frame} {outs : List Buffer} {c : Ctx} {idx : Nat}
    {o : List Buffer} {cc : Ctx}
    (h : tupleStep body szsIn szsOut inBufs (.running fin fout outs c) idx = .bfail o cc) :
    o = outs ∧ cc = c := by
  simp only [tupleStep] at h
  cases hv : (copyInAll idx fin szsIn inBufs).values with
  | none => simp only [hv] at h; exact absurd h (by simp)
  | some ins =>
    simp only [hv] at h
    cases hb : body c ins with
    | none =>
      simp only [hb, TupleLoopState.bfail.injEq] at h
      exact ⟨h.1.symm, h.2.symm⟩
    | some r =>
      obtain ⟨c₀, vs⟩ := r
      simp only [hb] at h
      cases hr : relocateAll idx (fillFrame fout vs) szsOut outs with
      | none => simp only [hr] at h; exact absurd h (by simp)
      | some p =>
        obtain ⟨fr₀, bufs₀⟩ := p
        simp only [hr] at h
        exact absurd h (by simp)

/-- Write footprint of the tuple-call loop: whatever the loop result
(normal or stopped by a body failure), any output byte lying outside every
element region of the processed indices keeps its initial value. -/
theorem tupleFold_outside {Ctx : Type} {body : TupleCallBody Ctx} {szsIn szsOut : List Nat}
    {inBufs : List Buffer} (hws : WellSizedTupleBody body szsOut) :
    ∀ (l : List Nat) (fin : Frame) (outs : List Buffer) (c : Ctx) (res : List Buffer),
      (l.foldl (tupleStep body szsIn szsOut inBufs)
          (.running fin (Frame.alloc szsOut.length) outs c)).outBufsOf = some res →
      ∀ k a, (∀ i ∈ l, OutsideRegion i (szsOut.getD k 0) a) →
      res.getD k bufferDflt a = outs.getD k bufferDflt a := by
  intro l
  induction l with
  | nil =>
    intro fin outs c res h k a _
    simp only [List.foldl_nil, TupleLoopState.outBufsOf, Option.some.injEq] at h
    rw [← h]
  | cons idx l ih =>
    intro fin outs c res h k a hout
    rw [List.foldl_cons] at h
    cases hs : tupleStep body szsIn szsOut inBufs
        (.running fin (Frame.alloc szsOut.length) outs c) idx with
    | running fin' fout' outs' c' =>
      rw [hs] at h
      obtain ⟨ins, vs, _, hbody, hvs, houts, _, hfout', houts'⟩ := tupleStep_running_eq hs
      rw [hfout'] at h
      have hfa := hws _ _ _ _ hbody
      have step1 : outs'.getD k bufferDflt a = outs.getD k bufferDflt a := by
        rw [houts']
        exact writeOutputs_getD_outside idx szsOut vs outs k a hfa (hout idx (by simp))
      rw [ih fin' outs' c' res h k a (fun i hi => hout i (by simp [hi])), step1]
    | afail =>
      rw [hs, foldl_tupleStep_afail] at h
      simp [TupleLoopState.outBufsOf] at h
    | bfail o cc =>
      rw [hs, foldl_tupleStep_bfail] at h
      simp only [TupleLoopState.outBufsOf, Option.some.injEq] at h
      obtain ⟨ho, _⟩ := tupleStep_bfail_eq hs
      rw [← h, ho]

/-- Write footprint of the generated LLVM batch loop. -/
theorem llvmFold_outside {Ctx : Type} {body : LLVMBodyFn Ctx} {szsIn szsOut : List Nat}
    {ins : List Buffer} (hws : WellSizedLLVMBody body szsOut) :
    ∀ (l : List Nat) (outs : List Buffer) (c : Ctx) (k a : Nat),
      (∀ i ∈ l, OutsideRegion i (szsOut.getD k 0) a) →
      ((l.foldl (fun st idx =>
          (writeOutputs idx szsOut (body st.2 (readInputsAt idx szsIn ins)).2 st.1,
            (body st.2 (readInputsAt idx szsIn ins)).1)) (outs, c)).1).getD k bufferDflt a
        = outs.getD k bufferDflt a := by
  intro l
  induction l with
  | nil => intro outs c k a _; rfl
  | cons idx l ih =>
    intro outs c k a hout
    simp only [List.foldl_cons]
    rw [ih (writeOutputs idx szsOut (body c (readInputsAt idx szsIn ins)).2 outs)
      ((body c (readInputsAt idx szsIn ins)).1) k a (fun i hi => hout i (by simp [hi]))]
    exact writeOutputs_getD_outside idx szsOut _ outs k a
      (hws c (readInputsAt idx szsIn ins)) (hout idx (by simp))

theorem copyInAll_congr {l : List Nat} {idx : Nat} (hidx : idx ∈ l) :
    ∀ (fr : Frame) (szs : List Nat) (bufs bufs' : List Buffer),
      bufs.length = bufs'.length → InputsAgree szs bufs bufs' l →
      copyInAll idx fr szs bufs = copyInAll idx fr szs bufs' := by
  intro fr
  induction fr with
  | nil => intro szs bufs bufs' _ _; rfl
  | cons s fr ih =>
    intro szs bufs bufs' hlen hag
    cases szs with
    | nil => rfl
    | cons sz szs =>
      cases bufs with
      | nil =>
        have : bufs' = [] := List.eq_nil_of_length_eq_zero hlen.symm
        subst this
        rfl
      | cons buf bufs =>
        cases bufs' with
        | nil => simp at hlen
        | cons buf' bufs' =>
          simp only [copyInAll]
          have h1 : readBytes buf (idx * sz) sz = readBytes buf' (idx * sz) sz := by
            apply readBytes_congr
            intro b hb
            have := hag 0 idx hidx b (by simpa using hb)
            simpa using this
          rw [h1, ih szs bufs bufs' (by simpa using hlen)
            (fun k i hi b hb => by
              have := hag (k + 1) i hi b (by simpa using hb)
              simpa using this)]

theorem tupleStep_congr {Ctx : Type} {body : TupleCallBody Ctx} {szsIn szsOut : List Nat}
    {bufs bufs' : List Buffer} {l : List Nat} {idx : Nat} (hidx : idx ∈ l)
    (hlen : bufs.length = bufs'.length) (hag : InputsAgree szsIn bufs bufs' l)
    (st : TupleLoopState Ctx) :
    tupleStep body szsIn szsOut bufs st idx = tupleStep body szsIn szsOut bufs' st idx := by
  cases st with
  | running fin fout outs c =>
    simp only [tupleStep]
    rw [copyInAll_congr hidx fin szsIn bufs bufs' hlen hag]
  | afail => rfl
  | bfail o c => rfl

theorem tupleFold_congr {Ctx : Type} {body : TupleCallBody Ctx} {szsIn szsOut : List Nat}
    {bufs bufs' : List Buffer} (hlen : bufs.length = bufs'.length) :
    ∀ (l : List Nat), InputsAgree szsIn bufs bufs' l →
      ∀ (st : TupleLoopState Ctx),
        l.foldl (tupleStep body szsIn szsOut bufs) st
          = l.foldl (tupleStep body szsIn szsOut bufs') st := by
  intro l
  induction l with
  | nil => intro _ st; rfl
  | cons idx l ih =>
    intro hag st
    simp only [List.foldl_cons]
    rw [tupleStep_congr (List.mem_cons_self idx l) hlen hag st]
    exact ih (fun k i hi b hb => hag k i (by simp [hi]) b hb) _

theorem tupleCall_nobody {Ctx : Type} {f : SharedFunction Ctx} (hb : f.tuple_call_body = none)
    (l : List Nat) (ins outs : List Buffer) (c : Ctx) :
    (tupleStrategyOf f).call l ins outs c = .assertFailed := by
  simp only [TupleCallArrayExecution.call, tupleStrategyOf, ArrayExecution.make, hb]
  split <;> rfl

theorem tupleCall_congr {Ctx : Type} (f : SharedFunction Ctx) {bufs bufs' : List Buffer}
    (hlen : bufs.length = bufs'.length) (l : List Nat)
    (hag : InputsAgree (f.input_types.map CPPType.size) bufs bufs' l)
    (outs : List Buffer) (c : Ctx) :
    (tupleStrategyOf f).call l bufs outs c = (tupleStrategyOf f).call l bufs' outs c := by
  by_cases har : f.input_amount = bufs'.length ∧ f.output_amount = outs.length
  · have harb : f.input_amount = bufs.length ∧ f.output_amount = outs.length := by
      rw [hlen]; exact har
    cases hbody : f.tuple_call_body with
    | none => rw [tupleCall_nobody hbody l bufs outs c, tupleCall_nobody hbody l bufs' outs c]
    | some body =>
      rw [tupleCall_unfold hbody l bufs outs c harb, tupleCall_unfold hbody l bufs' outs c har,
        tupleFold_congr hlen l hag _]
  · have harb : ¬ (f.input_amount = bufs.length ∧ f.output_amount = outs.length) := by
      rw [hlen]; exact har
    rw [tupleCall_assert f l bufs outs c harb, tupleCall_assert f l bufs' outs c har]

theorem llvmFold_congr {Ctx : Type} {body : LLVMBodyFn Ctx} {szsIn szsOut : List Nat}
    {bufs bufs' : List Buffer} (hlen : bufs.length = bufs'.length) :
    ∀ (l : List Nat), InputsAgree szsIn bufs bufs' l →
      ∀ (st : List Buffer × Ctx),
        l.foldl (fun st idx =>
            (writeOutputs idx szsOut (body st.2 (readInputsAt idx szsIn bufs)).2 st.1,
              (body st.2 (readInputsAt idx szsIn bufs)).1)) st
          = l.foldl (fun st idx =>
              (writeOutputs idx szsOut (body st.2 (readInputsAt idx szsIn bufs')).2 st.1,
                (body st.2 (readInputsAt idx szsIn bufs')).1)) st := by
  intro l
  induction l with
  | nil => intro _ st; rfl
  | cons idx l ih =>
    intro hag st
    simp only [List.foldl_cons]
    rw [readInputsAt_congr (List.mem_cons_self idx l) szsIn bufs bufs' hlen hag]
    exact ih (fun k i hi b hb => hag k i (by simp [hi]) b hb) _

theorem llvmCtor_inv {Ctx : Type} {f : SharedFunction Ctx} {strat : LLVMArrayExecution Ctx}
    (h : get_precompiled_array_execution f = some strat) :
    ∃ body, f.llvm_body = some body ∧
      strat = ⟨ArrayExecution.make f,
        ⟨generatedFunction body (f.input_types.map CPPType.size)
          (f.output_types.map CPPType.size)⟩⟩ := by
  unfold get_precompiled_array_execution at h
  cases hb : f.llvm_body with
  | none => rw [hb] at h; exact absurd h (by simp)
  | some body =>
    rw [hb] at h
    simp only [Option.some.injEq] at h
    exact ⟨body, rfl, h.symm⟩

theorem region_disjoint {i j sz a : Nat} (hij : i ≠ j) (h1 : i * sz ≤ a)
    (h2 : a < i * sz + sz) : OutsideRegion j sz a := by
  intro hj
  obtain ⟨hj1, hj2⟩ := hj
  rcases Nat.lt_or_ge i j with hlt | hge
  · have hm : (i + 1) * sz ≤ j * sz := Nat.mul_le_mul_right sz hlt
    rw [Nat.succ_mul] at hm
    omega
  · have hlt : j < i := lt_of_le_of_ne hge (Ne.symm hij)
    have hm : (j + 1) * sz ≤ i * sz := Nat.mul_le_mul_right sz hlt
    rw [Nat.succ_mul] at hm
    omega

/-- The bytes a batch of a pure well-sized function leaves in the element
region of any processed index do not depend on the initial contents of the
output buffers. -/
theorem pureBatch_region {g : List (List Nat) → List (List Nat)} {szsIn szsOut : List Nat}
    {ins : List Buffer}
    (hg : ∀ x, List.Forall₂ (fun v sz => v.length = sz) (g x) szsOut) :
    ∀ (l : List Nat) (outs outs' : List Buffer),
      outs.length = szsOut.length → outs'.length = szsOut.length →
      ∀ i ∈ l, ∀ k, k < szsOut.length →
      readBytes ((pureBatch g szsIn szsOut ins l outs).getD k bufferDflt)
          (i * szsOut.getD k 0) (szsOut.getD k 0)
        = readBytes ((pureBatch g szsIn szsOut ins l outs').getD k bufferDflt)
          (i * szsOut.getD k 0) (szsOut.getD k 0) := by
  intro l
  induction l using List.reverseRecOn with
  | nil => intro outs outs' _ _ i hi; simp at hi
  | append_singleton l j ihl =>
    intro outs outs' houts houts' i hi k hk
    rw [pureBatch_append, pureBatch_append]
    by_cases hij : i = j
    · subst hij
      have hfa := hg (readInputsAt i szsIn ins)
      have hglen : (g (readInputsAt i szsIn ins)).length = szsOut.length := hfa.length_eq
      have hvlen : ((g (readInputsAt i szsIn ins)).getD k []).length = szsOut.getD k 0 :=
        forall₂_getD hfa k (by omega) [] 0
      rw [writeOutputs_getD i szsOut _ _ k hk (by rw [pureBatch_length]; omega) (by omega),
        writeOutputs_getD i szsOut _ _ k hk (by rw [pureBatch_length]; omega) (by omega),
        ← hvlen, readBytes_writeBytes, readBytes_writeBytes]
    · have hil : i ∈ l := by
        rcases List.mem_append.mp hi with h | h
        · exact h
        · simp at h; exact absurd h hij
      have houtside : ∀ b, b < szsOut.getD k 0 →
          OutsideRegion j (szsOut.getD k 0) (i * szsOut.getD k 0 + b) := by
        intro b hb
        exact region_disjoint hij (Nat.le_add_right _ _) (by omega)
      have e1 : readBytes ((writeOutputs j szsOut (g (readInputsAt j szsIn ins))
            (pureBatch g szsIn szsOut ins l outs)).getD k bufferDflt)
            (i * szsOut.getD k 0) (szsOut.getD k 0)
          = readBytes ((pureBatch g szsIn szsOut ins l outs).getD k bufferDflt)
            (i * szsOut.getD k 0) (szsOut.getD k 0) := by
        apply readBytes_congr
        intro b hb
        exact writeOutputs_getD_outside j szsOut _ _ k _ (hg _) (houtside b hb)
      have e2 : readBytes ((writeOutputs j szsOut (g (readInputsAt j szsIn ins))
            (pureBatch g szsIn szsOut ins l outs')).getD k bufferDflt)
            (i * szsOut.getD k 0) (szsOut.getD k 0)
          = readBytes ((pureBatch g szsIn szsOut ins l outs').getD k bufferDflt)
            (i * szsOut.getD k 0) (szsOut.getD k 0) := by
        apply readBytes_congr
        intro b hb
        exact writeOutputs_getD_outside j szsOut _ _ k _ (hg _) (houtside b hb)
      rw [e1, e2]
      exact ihl outs outs' houts houts' i hil k hk

theorem match_outputs {Ctx : Type} (st : TupleLoopState Ctx) :
    (match st with
      | .running _ _ o cc => ExecResult.ok o cc
      | .afail => ExecResult.assertFailed
      | .bfail o cc => ExecResult.bodyFailed o cc).outputs = st.outBufsOf := by
  cases st <;> rfl

/-- The tuple-call strategy applied to a pure descriptor computes exactly
the per-index batch of `g`. -/
theorem tupleCall_pure {Ctx : Type} (g : List (List Nat) → List (List Nat))
    (tysIn tysOut : List CPPType) (l : List Nat) (ins outs : List Buffer) (c : Ctx)
    (hin : ins.length = tysIn.length) (hout : outs.length = tysOut.length)
    (hg : ∀ x, (g x).length = tysOut.length) :
    (tupleStrategyOf (pureDescriptor g tysIn tysOut)).call l ins outs c
      = .ok (pureBatch g (tysIn.map CPPType.size) (tysOut.map CPPType.size) ins l outs) c := by
  have hlenIn : (tysIn.map CPPType.size).length = tysIn.length := by simp
  have hlenOut : (tysOut.map CPPType.size).length = tysOut.length := by simp
  have har : (pureDescriptor g tysIn tysOut : SharedFunction Ctx).input_amount = ins.length ∧
      (pureDescriptor g tysIn tysOut : SharedFunction Ctx).output_amount = outs.length :=
    ⟨by simp [pureDescriptor, SharedFunction.input_amount, hin],
      by simp [pureDescriptor, SharedFunction.output_amount, hout]⟩
  rw [tupleCall_unfold rfl l ins outs c har]
  simp only [pureDescriptor, SharedFunction.input_amount, SharedFunction.output_amount]
  rw [show tysOut.length = (tysOut.map CPPType.size).length from hlenOut.symm]
  obtain ⟨fin', hfold, _⟩ := tupleFold_pure g (tysIn.map CPPType.size) (tysOut.map CPPType.size)
    ins (by rw [hin, hlenIn]) (fun x => by rw [hg x, hlenOut]) l
    (Frame.alloc tysIn.length) outs c
    (by simp [Frame.alloc]) (by rw [hout, hlenOut])
  rw [hfold]

/-- The compiled-batch strategy built over a pure body computes exactly the
per-index batch of `g`. -/
theorem llvmCall_pure {Ctx : Type} (g : List (List Nat) → List (List Nat))
    (szsIn szsOut : List Nat) (base : ArrayExecution Ctx)
    (l : List Nat) (ins outs : List Buffer) (c : Ctx) :
    (LLVMArrayExecution.mk base ⟨generatedFunction (pureLLVMBody g) szsIn szsOut⟩).call
        l ins outs c
      = .ok (pureBatch g szsIn szsOut ins l outs) c := by
  show ExecResult.ok (generatedFunction (pureLLVMBody g) szsIn szsOut l.length l ins outs c).1
      (generatedFunction (pureLLVMBody g) szsIn szsOut l.length l ins outs c).2
    = ExecResult.ok (pureBatch g szsIn szsOut ins l outs) c
  rw [generatedFunction_foldl, llvmFold_pure]

/-- C1: for every index set, every pair of positionally matched input and
output buffer arrays, and every pure function descriptor carrying both a
boxed-call body and a compile-to-native body, the boxed-call strategy and
the compiled-batch strategy built from that descriptor produce
byte-identical output buffers (and the same final context). -/
theorem claim_C1 {Ctx : Type} (g : List (List Nat) → List (List Nat))
    (tysIn tysOut : List CPPType)
    (stratT : TupleCallArrayExecution Ctx) (stratL : LLVMArrayExecution Ctx)
    (hT : get_tuple_call_array_execution (pureDescriptor g tysIn tysOut) = some stratT)
    (hL : get_precompiled_array_execution (pureDescriptor g tysIn tysOut) = some stratL)
    (indices : List Nat) (input_buffers output_buffers : List Buffer) (ctx : Ctx)
    (hin : input_buffers.length = tysIn.length)
    (hout : output_buffers.length = tysOut.length)
    (hg : ∀ x, (g x).length = tysOut.length) :
    stratT.call indices input_buffers output_buffers ctx
      = stratL.call indices input_buffers output_buffers ctx := by
  have hTs : stratT = tupleStrategyOf (pureDescriptor g tysIn tysOut) := by
    simp only [get_tuple_call_array_execution, pureDescriptor, Option.some.injEq] at hT
    exact hT.symm
  obtain ⟨bodyL, hbL, hsL⟩ := llvmCtor_inv hL
  have hbodyL : bodyL = pureLLVMBody g := by
    simp only [pureDescriptor, Option.some.injEq] at hbL
    exact hbL.symm
  subst hbodyL
  subst hTs
  subst hsL
  rw [tupleCall_pure g tysIn tysOut indices input_buffers output_buffers ctx hin hout hg]
  rw [show List.map CPPType.size (pureDescriptor g tysIn tysOut : SharedFunction Ctx).input_types
      = List.map CPPType.size tysIn from rfl,
    show List.map CPPType.size (pureDescriptor g tysIn tysOut : SharedFunction Ctx).output_types
      = List.map CPPType.size tysOut from rfl,
    llvmCall_pure g (tysIn.map CPPType.size) (tysOut.map CPPType.size) _
      indices input_buffers output_buffers ctx]

/-- Witness for C1 at a concrete pure one-input one-output descriptor. -/
theorem claim_C1_witness :
    (tupleStrategyOf
        (pureDescriptor (fun _ => [[7]]) [⟨1⟩] [⟨1⟩] : SharedFunction Unit)).call
        [0, 2] [fun _ => 3] [fun _ => 0] ()
      = (LLVMArrayExecution.mk
          (ArrayExecution.make (pureDescriptor (fun _ => [[7]]) [⟨1⟩] [⟨1⟩]))
          ⟨generatedFunction (pureLLVMBody (fun _ => [[7]])) [1] [1]⟩).call
        [0, 2] [fun _ => 3] [fun _ => 0] () :=
  claim_C1 (fun _ => [[7]]) [⟨1⟩] [⟨1⟩] _ _ rfl rfl [0, 2] [fun _ => 3] [fun _ => 0] ()
    rfl rfl (fun _ => rfl)

/-- C8 counterexample: with a failing code-generation/JIT step, `compile()`
exits with the global LLVM context still acquired — the single
`release_llvm_context` call sits on the straight-line path after
`CompiledLLVM::FromIR` and is skipped by a propagating failure, so the
claim "released on every exit path" is false. -/
theorem claim_C8_counterexample :
    compileStep (none : Option Unit) { acquired := false } = .error { acquired := true }
      ∧ (JITContextState.mk true).acquired = true := ⟨rfl, rfl⟩

/-- C8 (amended): the global LLVM context is released on the successful
exit path of `compile()` — the only path that reaches the release call;
a propagating compilation failure skips the release and exits with the
context still acquired. -/
theorem claim_C8 {A : Type} (artifact : A) (st : JITContextState) :
    compileStep (some artifact) st = .ok ({ acquired := false }, artifact)
      ∧ compileStep (none : Option A) st = .error { acquired := true } := ⟨rfl, rfl⟩

/-- C3 counterexample: `LLVMArrayExecution::call` contains no arity
assertion — a call with an empty input-buffer array against a one-input
descriptor is not stopped at entry: it invokes the compiled function and
returns normally, even writing the output buffer. -/
theorem claim_C3_counterexample :
    get_precompiled_array_execution
        (llvmOnlyDescriptor (fun (c : Unit) _ => (c, [[4]])) [⟨1⟩] [⟨1⟩])
      = some (LLVMArrayExecution.mk
          (ArrayExecution.make (llvmOnlyDescriptor (fun (c : Unit) _ => (c, [[4]])) [⟨1⟩] [⟨1⟩]))
          ⟨generatedFunction (fun c _ => (c, [[4]])) [1] [1]⟩) ∧
    (LLVMArrayExecution.mk
        (ArrayExecution.make (llvmOnlyDescriptor (fun (c : Unit) _ => (c, [[4]])) [⟨1⟩] [⟨1⟩]))
        ⟨generatedFunction (fun c _ => (c, [[4]])) [1] [1]⟩).call [0] [] [fun _ => 9] ()
      = .ok [writeBytes (fun _ => 9) 0 [4]] () ∧
    ExecResult.ok [writeBytes (fun _ => 9) 0 [4]] () ≠ (ExecResult.assertFailed : ExecResult Unit) := by
  refine ⟨rfl, rfl, ?_⟩
  simp

/-- C3 (amended): the boxed-call strategy checks both arity preconditions
by assertion at entry to `call` — a violating call stops there, before any
buffer access; the compiled-batch strategy's `call` performs no such
assertion (see the counterexample). -/
theorem claim_C3 {Ctx : Type} (f : SharedFunction Ctx) (indices : List Nat)
    (ins outs : List Buffer) (c : Ctx)
    (h : ¬ (f.input_amount = ins.length ∧ f.output_amount = outs.length)) :
    (tupleStrategyOf f).call indices ins outs c = .assertFailed :=
  tupleCall_assert f indices ins outs c h

/-- Witness for C3 at a concrete arity-violating call. -/
theorem claim_C3_witness :
    ¬ ((tupleOnlyDescriptor (fun (c : Unit) _ => some (c, [[4]])) [⟨1⟩] [⟨1⟩]).input_amount
          = ([] : List Buffer).length ∧
        (tupleOnlyDescriptor (fun (c : Unit) _ => some (c, [[4]])) [⟨1⟩] [⟨1⟩]).output_amount
          = ([fun _ => 9] : List Buffer).length) ∧
    (tupleStrategyOf (tupleOnlyDescriptor (fun (c : Unit) _ => some (c, [[4]])) [⟨1⟩] [⟨1⟩])).call
        [0] [] [fun _ => 9] () = .assertFailed :=
  ⟨by decide, claim_C3 _ [0] [] [fun _ => 9] () (by decide)⟩

/-- C6: the compiled-batch strategy compiles eagerly during construction —
the stored artifact is exactly the generated batch function with the fixed
five-parameter signature, built from the descriptor's compilable body and
the size tables — and every `call` performs no code generation: it invokes
the stored compiled function exactly once, passing `indices.size()`, the
index data, the input-buffer array, the output-buffer array, and the
execution context. -/
theorem claim_C6 :
    (∀ (Ctx : Type) (f : SharedFunction Ctx) (body : LLVMBodyFn Ctx),
      f.llvm_body = some body →
      get_precompiled_array_execution f
        = some ⟨ArrayExecution.make f,
            ⟨generatedFunction body (f.input_types.map CPPType.size)
              (f.output_types.map CPPType.size)⟩⟩) ∧
    (∀ (Ctx : Type) (strat : LLVMArrayExecution Ctx) (indices : List Nat)
        (ins outs : List Buffer) (c : Ctx),
      strat.call indices ins outs c
        = .ok (strat.m_compiled_function.function_ptr indices.length indices ins outs c).1
            (strat.m_compiled_function.function_ptr indices.length indices ins outs c).2) ∧
    (∀ (Ctx : Type) (gfn : CompiledLLVM Ctx) (base : ArrayExecution (Ctx × Nat))
        (indices : List Nat) (ins outs : List Buffer) (c : Ctx) (k : Nat),
      (LLVMArrayExecution.mk base (countCompiledFn gfn)).call indices ins outs (c, k)
        = .ok (gfn.function_ptr indices.length indices ins outs c).1
            ((gfn.function_ptr indices.length indices ins outs c).2, k + 1)) := by
  refine ⟨?_, ?_, ?_⟩
  · intro Ctx f body hb
    unfold get_precompiled_array_execution
    rw [hb]
    rfl
  · intro Ctx strat indices ins outs c
    rfl
  · intro Ctx gfn base indices ins outs c k
    rfl

/-- Witness for C6 at a concrete descriptor with a compile-to-native body. -/
theorem claim_C6_witness :
    get_precompiled_array_execution
        (llvmOnlyDescriptor (fun (c : Unit) _ => (c, [[4]])) [⟨1⟩] [⟨1⟩])
      = some ⟨ArrayExecution.make
            (llvmOnlyDescriptor (fun (c : Unit) _ => (c, [[4]])) [⟨1⟩] [⟨1⟩]),
          ⟨generatedFunction (fun c _ => (c, [[4]])) [1] [1]⟩⟩ :=
  claim_C6.1 Unit _ _ rfl

/-- C7: the loop emitted into the compiled-batch native function executes
its body exactly `count` times, where `count` is the function's first
parameter, with no early exit: instrumenting the compiled body with an
invocation counter, the generated function always terminates with the
counter advanced by exactly `count`, whatever the other four arguments
hold. -/
theorem claim_C7 {Ctx : Type} (b : LLVMBodyFn Ctx) (szsIn szsOut : List Nat)
    (count : Nat) (indices : List Nat) (ins outs : List Buffer) (c : Ctx) (k : Nat) :
    (generatedFunction (countLLVMBody b) szsIn szsOut count indices ins outs (c, k)).2.2
      = k + count := by
  unfold generatedFunction nIterationsLoop
  have h := foldl_proj_succ (fun (st : List Buffer × (Ctx × Nat)) => st.2.2)
    (fun st i =>
      (writeOutputs (indices.getD i 0) szsOut
          (countLLVMBody b st.2 (readInputsAt (indices.getD i 0) szsIn ins)).2 st.1,
        (countLLVMBody b st.2 (readInputsAt (indices.getD i 0) szsIn ins)).1))
    (fun s x => rfl) (List.range count) (outs, (c, k))
  simpa using h

/-- C9: if the boxed-call body fails at some position of the index
sequence, the failure propagates unchanged out of `call` (no catch, no
retry), the indices after that position are never attempted — the result
does not depend on them at all — and the outputs already relocated for the
earlier indices remain written, with no rollback. -/
theorem claim_C9 {Ctx : Type} (b : TupleCallBody Ctx) (tysIn tysOut : List CPPType)
    (l1 l2 : List Nat) (j : Nat) (ins outs : List Buffer) (c0 : Ctx)
    (outs1 : List Buffer) (c1 : Ctx)
    (hsucc : (tupleStrategyOf (tupleOnlyDescriptor b tysIn tysOut)).call l1 ins outs c0
      = .ok outs1 c1)
    (hfail : b c1 (readInputsAt j (tysIn.map CPPType.size) ins) = none) :
    (tupleStrategyOf (tupleOnlyDescriptor b tysIn tysOut)).call (l1 ++ j :: l2) ins outs c0
      = .bodyFailed outs1 c1 := by
  have hb : (tupleOnlyDescriptor b tysIn tysOut : SharedFunction Ctx).tuple_call_body
      = some b := rfl
  obtain ⟨har, fin1, fout1, hfold⟩ := tupleCall_ok_inv hb hsucc
  have hfold' := hfold
  rw [show (tupleOnlyDescriptor b tysIn tysOut : SharedFunction Ctx).output_amount
      = ((tupleOnlyDescriptor b tysIn tysOut : SharedFunction Ctx).output_types.map
          CPPType.size).length from by
    simp [tupleOnlyDescriptor, SharedFunction.output_amount]] at hfold'
  obtain ⟨hfin1len, _, _⟩ := tupleFold_running_inv l1 _ outs c0 fin1 fout1 outs1 c1 hfold'
  have h1 : fin1.length
      = ((tupleOnlyDescriptor b tysIn tysOut : SharedFunction Ctx).input_types.map
          CPPType.size).length := by
    rw [hfin1len]
    simp [Frame.alloc, tupleOnlyDescriptor, SharedFunction.input_amount]
  have h2 : ((tupleOnlyDescriptor b tysIn tysOut : SharedFunction Ctx).input_types.map
      CPPType.size).length = ins.length := by
    simpa [tupleOnlyDescriptor, SharedFunction.input_amount] using har.1
  rw [tupleCall_unfold hb (l1 ++ j :: l2) ins outs c0 har, List.foldl_append, hfold,
    List.foldl_cons, tupleStep_run_fail (copyInAll_values j fin1 _ ins h1 h2) hfail,
    foldl_tupleStep_bfail]

/-- Witness for C9: a two-output-free body that succeeds on the first call
and fails on the second; the batch over `[0] ++ 1 :: [2, 3]` stops at index
1 with the first write kept and indices 2, 3 never attempted. -/
theorem claim_C9_witness :
    (tupleStrategyOf (tupleOnlyDescriptor
        (fun (c : Nat) _ => if c = 0 then some (c + 1, [[5]]) else none) [] [⟨1⟩])).call
        ([0] ++ 1 :: [2, 3]) [] [fun _ => 0] 0
      = .bodyFailed [writeBytes (fun _ => 0) 0 [5]] 1 :=
  claim_C9 (fun c _ => if c = 0 then some (c + 1, [[5]]) else none) [] [⟨1⟩]
    [0] [2, 3] 1 [] [fun _ => 0] 0 [writeBytes (fun _ => 0) 0 [5]] 1 rfl rfl

theorem forall₂_map_sizes {vals : List (List Nat)} {tys : List CPPType}
    (h : List.Forall₂ (fun v (t : CPPType) => v.length = t.size) vals tys) :
    List.Forall₂ (fun v sz => v.length = sz) vals (tys.map CPPType.size) := by
  induction h with
  | nil => exact List.Forall₂.nil
  | cons hh _ iht => exact List.Forall₂.cons hh iht

theorem tupleStep_count {Ctx : Type} {b : TupleCallBody Ctx} {szsIn szsOut : List Nat}
    {inBufs : List Buffer} {fin fout : Frame} {outs : List Buffer} {c : Ctx} {k : Nat}
    {idx : Nat} {fin' fout' : Frame} {outs' : List Buffer} {c' : Ctx} {k' : Nat}
    (h : tupleStep (countTupleBody b) szsIn szsOut inBufs
        (.running fin fout outs (c, k)) idx = .running fin' fout' outs' (c', k')) :
    k' = k + 1 := by
  simp only [tupleStep] at h
  cases hv : (copyInAll idx fin szsIn inBufs).values with
  | none => simp only [hv] at h; exact absurd h (by simp)
  | some ins =>
    simp only [hv] at h
    cases hb : b c ins with
    | none =>
      simp only [countTupleBody, hb, Option.map_none'] at h
      exact absurd h (by simp)
    | some r =>
      obtain ⟨cc, vs⟩ := r
      simp only [countTupleBody, hb, Option.map_some'] at h
      cases hr : relocateAll idx (fillFrame fout vs) szsOut outs with
      | none => simp only [hr] at h; exact absurd h (by simp)
      | some p =>
        obtain ⟨fr₀, bufs₀⟩ := p
        simp only [hr, TupleLoopState.running.injEq, Prod.mk.injEq] at h
        exact h.2.2.2.2.symm

theorem tupleFold_count {Ctx : Type} {b : TupleCallBody Ctx} {szsIn szsOut : List Nat}
    {inBufs : List Buffer} :
    ∀ (l : List Nat) (fin fout : Frame) (outs : List Buffer) (c : Ctx) (k : Nat)
      (fin1 fout1 : Frame) (outs1 : List Buffer) (cn : Ctx) (n : Nat),
      l.foldl (tupleStep (countTupleBody b) szsIn szsOut inBufs)
          (.running fin fout outs (c, k)) = .running fin1 fout1 outs1 (cn, n) →
      n = k + l.length := by
  intro l
  induction l with
  | nil =>
    intro fin fout outs c k fin1 fout1 outs1 cn n h
    simp only [List.foldl_nil, TupleLoopState.running.injEq, Prod.mk.injEq] at h
    obtain ⟨_, _, _, _, hkn⟩ := h
    simp only [List.length_nil]
    omega
  | cons idx l ih =>
    intro fin fout outs c k fin1 fout1 outs1 cn n h
    rw [List.foldl_cons] at h
    cases hs : tupleStep (countTupleBody b) szsIn szsOut inBufs
        (.running fin fout outs (c, k)) idx with
    | running fin' fout' outs' cx =>
      obtain ⟨c'', k'⟩ := cx
      rw [hs] at h
      have hk' := tupleStep_count hs
      have hn := ih fin' fout' outs' c'' k' fin1 fout1 outs1 cn n h
      simp only [List.length_cons]
      omega
    | afail =>
      rw [hs, foldl_tupleStep_afail] at h
      exact absurd h (by simp)
    | bfail o cc =>
      rw [hs, foldl_tupleStep_bfail] at h
      exact absurd h (by simp)

/-- C10: the boxed-call strategy processes the index sequence strictly in
the given order, invoking the body exactly once per occurrence (duplicated
indices included): appending one further occurrence of `j` performs exactly
one more body call — on the context as evolved by all earlier elements —
and its outputs overwrite `j`'s element regions, so the value left in the
buffers for a repeated index is the one from the last occurrence; an
invocation counter threaded through the context always ends at the number
of occurrences processed. -/
theorem claim_C10 {Ctx : Type} (b : TupleCallBody Ctx) (tysIn tysOut : List CPPType)
    (l1 : List Nat) (j : Nat) (ins outs : List Buffer) (c0 : Ctx)
    (outs1 : List Buffer) (c1 c2 : Ctx) (vals : List (List Nat))
    (hsucc : (tupleStrategyOf (tupleOnlyDescriptor b tysIn tysOut)).call l1 ins outs c0
      = .ok outs1 c1)
    (hlast : b c1 (readInputsAt j (tysIn.map CPPType.size) ins) = some (c2, vals))
    (hvals : vals.length = tysOut.length) :
    (tupleStrategyOf (tupleOnlyDescriptor b tysIn tysOut)).call (l1 ++ [j]) ins outs c0
      = .ok (writeOutputs j (tysOut.map CPPType.size) vals outs1) c2 ∧
    (List.Forall₂ (fun v (t : CPPType) => v.length = t.size) vals tysOut →
      ∀ k, k < tysOut.length →
        readBytes ((writeOutputs j (tysOut.map CPPType.size) vals outs1).getD k bufferDflt)
            (j * (tysOut.map CPPType.size).getD k 0) ((tysOut.map CPPType.size).getD k 0)
          = vals.getD k []) ∧
    (∀ (l : List Nat) (outs' : List Buffer) (cn : Ctx) (n : Nat),
      (tupleStrategyOf (tupleOnlyDescriptor (countTupleBody b) tysIn tysOut)).call
          l ins outs (c0, 0) = .ok outs' (cn, n) → n = l.length) := by
  have hb : (tupleOnlyDescriptor b tysIn tysOut : SharedFunction Ctx).tuple_call_body
      = some b := rfl
  obtain ⟨har, fin1, fout1, hfold⟩ := tupleCall_ok_inv hb hsucc
  have hfold' := hfold
  rw [show (tupleOnlyDescriptor b tysIn tysOut : SharedFunction Ctx).output_amount
      = ((tupleOnlyDescriptor b tysIn tysOut : SharedFunction Ctx).output_types.map
          CPPType.size).length from by
    simp [tupleOnlyDescriptor, SharedFunction.output_amount]] at hfold'
  obtain ⟨hfin1len, hfout1, houts1len⟩ :=
    tupleFold_running_inv l1 _ outs c0 fin1 fout1 outs1 c1 hfold'
  have h1 : fin1.length
      = ((tupleOnlyDescriptor b tysIn tysOut : SharedFunction Ctx).input_types.map
          CPPType.size).length := by
    rw [hfin1len]
    simp [Frame.alloc, tupleOnlyDescriptor, SharedFunction.input_amount]
  have h2 : ((tupleOnlyDescriptor b tysIn tysOut : SharedFunction Ctx).input_types.map
      CPPType.size).length = ins.length := by
    simpa [tupleOnlyDescriptor, SharedFunction.input_amount] using har.1
  have houts1tys : outs1.length = tysOut.length := by
    rw [houts1len]
    have := har.2
    simp only [tupleOnlyDescriptor, SharedFunction.output_amount] at this
    omega
  have hvs : vals.length
      = ((tupleOnlyDescriptor b tysIn tysOut : SharedFunction Ctx).output_types.map
          CPPType.size).length := by
    simpa [tupleOnlyDescriptor] using hvals
  have houts1 : outs1.length
      = ((tupleOnlyDescriptor b tysIn tysOut : SharedFunction Ctx).output_types.map
          CPPType.size).length := by
    rw [houts1tys]
    simp [tupleOnlyDescriptor]
  rw [hfout1] at hfold
  refine ⟨?_, ?_, ?_⟩
  · rw [tupleCall_unfold hb (l1 ++ [j]) ins outs c0 har, List.foldl_append, hfold,
      List.foldl_cons,
      tupleStep_run_of (copyInAll_values j fin1 _ ins h1 h2) hlast hvs houts1]
    rfl
  · intro hfa k hk
    have hfa' : List.Forall₂ (fun v sz => v.length = sz) vals (tysOut.map CPPType.size) :=
      forall₂_map_sizes hfa
    have hv2 : (vals.getD k []).length = (tysOut.map CPPType.size).getD k 0 :=
      forall₂_getD hfa' k (by omega) [] 0
    rw [writeOutputs_getD j (tysOut.map CPPType.size) vals outs1 k (by simpa using hk)
      (by rw [houts1tys]; exact hk) (by omega), ← hv2, readBytes_writeBytes]
  · intro l outs' cn n hcall
    have hbc : (tupleOnlyDescriptor (countTupleBody b) tysIn tysOut
        : SharedFunction (Ctx × Nat)).tuple_call_body = some (countTupleBody b) := rfl
    obtain ⟨har', fin1', fout1', hfold''⟩ := tupleCall_ok_inv hbc hcall
    have := tupleFold_count l _ _ outs c0 0 fin1' fout1' outs' cn n hfold''
    omega

/-- Witness for C10: a context-counting body over a duplicated index `0`;
the second occurrence runs the body once more and its output `[11]`
overwrites the first occurrence's `[10]`. -/
theorem claim_C10_witness :
    (tupleStrategyOf (tupleOnlyDescriptor
        (fun (c : Nat) _ => some (c + 1, [[c + 10]])) [] [⟨1⟩])).call
        ([0] ++ [0]) [] [fun _ => 0] 0
      = .ok (writeOutputs 0 (List.map CPPType.size [⟨1⟩]) [[11]]
          [writeBytes (fun _ => 0) 0 [10]]) 2 := by
  have h := claim_C10 (fun c _ => some (c + 1, [[c + 10]])) [] [⟨1⟩] [0] 0 [] [fun _ => 0] 0
    [writeBytes (fun _ => 0) 0 [10]] 1 2 [[11]] (by rfl) (by rfl) (by rfl)
  exact h.1

/-- With the body instrumented to record the input values of each of its
invocations, a successful run of the tuple-call loop records exactly one
invocation per index, in order, each receiving the values freshly copied
from the original (never-modified) input buffers. -/
theorem tupleFold_record {Ctx : Type} {b : TupleCallBody Ctx} {szsIn szsOut : List Nat}
    {inBufs : List Buffer} (hbufs : inBufs.length = szsIn.length) :
    ∀ (l : List Nat) (fin : Frame) (outs : List Buffer) (c : Ctx)
      (tr : List (List (List Nat))) (fin1 fout1 : Frame) (outs1 : List Buffer) (cn : Ctx)
      (trn : List (List (List Nat))),
      fin.length = szsIn.length →
      l.foldl (tupleStep (recordTupleBody b) szsIn szsOut inBufs)
          (.running fin (Frame.alloc szsOut.length) outs (c, tr))
        = .running fin1 fout1 outs1 (cn, trn) →
      trn = tr ++ l.map (fun j => readInputsAt j szsIn inBufs) := by
  intro l
  induction l with
  | nil =>
    intro fin outs c tr fin1 fout1 outs1 cn trn _ h
    simp only [List.foldl_nil, TupleLoopState.running.injEq, Prod.mk.injEq] at h
    obtain ⟨_, _, _, _, htr⟩ := h
    simp [← htr]
  | cons idx l ih =>
    intro fin outs c tr fin1 fout1 outs1 cn trn hfin h
    rw [List.foldl_cons] at h
    cases hs : tupleStep (recordTupleBody b) szsIn szsOut inBufs
        (.running fin (Frame.alloc szsOut.length) outs (c, tr)) idx with
    | running fin' fout' outs' cx =>
      rw [hs] at h
      obtain ⟨ins, vs, hv, hbody, hvs, houts, hfin', hfout', houts'⟩ := tupleStep_running_eq hs
      have hins : ins = readInputsAt idx szsIn inBufs := by
        have h2 := copyInAll_values idx fin szsIn inBufs hfin hbufs.symm
        rw [hv] at h2
        exact Option.some.inj h2
      simp only [recordTupleBody] at hbody
      cases hb2 : b c ins with
      | none => rw [hb2] at hbody; simp at hbody
      | some r =>
        obtain ⟨cc, vs'⟩ := r
        rw [hb2] at hbody
        simp only [Option.map_some', Option.some.injEq, Prod.mk.injEq] at hbody
        obtain ⟨hcx, _⟩ := hbody
        rw [hfout'] at h
        rw [← hcx] at h
        have htr := ih fin' outs' cc (tr ++ [ins]) fin1 fout1 outs1 cn trn
          (by rw [hfin', copyInAll_length, hfin]) h
        rw [htr, hins]
        simp
    | afail =>
      rw [hs, foldl_tupleStep_afail] at h
      exact absurd h (by simp)
    | bfail o cc =>
      rw [hs, foldl_tupleStep_bfail] at h
      exact absurd h (by simp)

/-- C4: the boxed-call strategy allocates its two call-frames once per
`call` and reuses them across all indices: (1) with a recording body, a
successful call shows the body invoked exactly once per index, in order,
each time on values freshly copied from the original input buffers — the
per-index copy-in is a value copy that leaves the source buffers unchanged
for later indices; (2) each `relocate_out` pass moves every output slot
out destructively, leaving the whole output frame empty; (3) consequently,
at the end of a successful run (and hence before every iteration), the
output frame is back to its freshly-allocated all-empty state, safe to
reuse. -/
theorem claim_C4 :
    (∀ (Ctx : Type) (b : TupleCallBody Ctx) (tysIn tysOut : List CPPType)
        (indices : List Nat) (ins outs : List Buffer) (c0 : Ctx)
        (outs1 : List Buffer) (cn : Ctx) (trace : List (List (List Nat))),
      ins.length = tysIn.length →
      (tupleStrategyOf (tupleOnlyDescriptor (recordTupleBody b) tysIn tysOut)).call
          indices ins outs (c0, []) = .ok outs1 (cn, trace) →
      trace = indices.map (fun j => readInputsAt j (tysIn.map CPPType.size) ins)) ∧
    (∀ (idx : Nat) (fr : Frame) (szs : List Nat) (bufs : List Buffer) (fr' : Frame)
        (bufs' : List Buffer),
      relocateAll idx fr szs bufs = some (fr', bufs') →
      fr' = List.replicate fr.length none) ∧
    (∀ (Ctx : Type) (b : TupleCallBody Ctx) (tysIn tysOut : List CPPType)
        (indices : List Nat) (ins outs : List Buffer) (c0 : Ctx)
        (outs1 : List Buffer) (cn : Ctx),
      (tupleStrategyOf (tupleOnlyDescriptor b tysIn tysOut)).call indices ins outs c0
        = .ok outs1 cn →
      ∃ fin1, indices.foldl
          (tupleStep b (tysIn.map CPPType.size) (tysOut.map CPPType.size) ins)
          (.running (Frame.alloc tysIn.length)
            (Frame.alloc (tysOut.map CPPType.size).length) outs c0)
        = .running fin1 (Frame.alloc (tysOut.map CPPType.size).length) outs1 cn) := by
  refine ⟨?_, ?_, ?_⟩
  · intro Ctx b tysIn tysOut indices ins outs c0 outs1 cn trace hin hcall
    obtain ⟨har, fin1, fout1, hfold⟩ := tupleCall_ok_inv rfl hcall
    have hfold' := hfold
    rw [show (tupleOnlyDescriptor (recordTupleBody b) tysIn tysOut
        : SharedFunction (Ctx × List (List (List Nat)))).output_amount
        = ((tupleOnlyDescriptor (recordTupleBody b) tysIn tysOut
            : SharedFunction (Ctx × List (List (List Nat)))).output_types.map
          CPPType.size).length from by
      simp [tupleOnlyDescriptor, SharedFunction.output_amount]] at hfold'
    exact tupleFold_record (by simpa [tupleOnlyDescriptor] using hin) indices _ outs c0 []
      fin1 fout1 outs1 cn trace
      (by simp [Frame.alloc, tupleOnlyDescriptor, SharedFunction.input_amount]) hfold'
  · intro idx fr szs bufs fr' bufs' h
    exact (relocateAll_some idx fr szs bufs fr' bufs' h).1
  · intro Ctx b tysIn tysOut indices ins outs c0 outs1 cn hcall
    obtain ⟨har, fin1, fout1, hfold⟩ := tupleCall_ok_inv rfl hcall
    have hfold' := hfold
    rw [show (tupleOnlyDescriptor b tysIn tysOut : SharedFunction Ctx).output_amount
        = ((tupleOnlyDescriptor b tysIn tysOut : SharedFunction Ctx).output_types.map
          CPPType.size).length from by
      simp [tupleOnlyDescriptor, SharedFunction.output_amount]] at hfold'
    obtain ⟨_, hfout1, _⟩ := tupleFold_running_inv indices _ outs c0 fin1 fout1 outs1 cn hfold'
    rw [hfout1] at hfold'
    exact ⟨fin1, hfold'⟩

/-- Witness for C4: a two-index call whose recorded trace shows one body
invocation per index, in order, on values copied from the original input
buffer. -/
theorem claim_C4_witness :
    ([[[41]], [[40]]] : List (List (List Nat)))
      = [1, 0].map (fun j => readInputsAt j (List.map CPPType.size [⟨1⟩])
          [fun a => a + 40]) := by
  have h := claim_C4.1 Unit (fun c _ => some (c, [[8]])) [⟨1⟩] [⟨1⟩] [1, 0]
    [fun a => a + 40] [fun _ => 0] ()
    [writeBytes (writeBytes (fun _ => 0) 1 [8]) 0 [8]] () [[[41]], [[40]]]
    (by rfl) (by rfl)
  exact h

/-- C2: per-call frame condition of the execute layer.  (1) The tuple-call
strategy writes, for each processed index `i` and output `k`, only the
bytes at offsets `i * size_k .. i * size_k + size_k` of output buffer `k`:
every byte outside those regions keeps its initial value, in normal and in
body-failure outcomes.  (2) It reads input buffers only inside the
corresponding per-index element regions: two input-buffer lists agreeing on
those bytes produce identical results.  (3), (4): the same two facts for
the compiled-batch strategy.  (5), (6): an empty index sequence returns
normally with the output buffers untouched, for both strategies. -/
theorem claim_C2 :
    (∀ (Ctx : Type) (b : TupleCallBody Ctx) (tysIn tysOut : List CPPType)
        (indices : List Nat) (ins outs : List Buffer) (c : Ctx) (res : List Buffer),
      WellSizedTupleBody b (tysOut.map CPPType.size) →
      ((tupleStrategyOf (tupleOnlyDescriptor b tysIn tysOut)).call indices ins outs c).outputs
        = some res →
      ∀ k a, (∀ i ∈ indices, OutsideRegion i ((tysOut.map CPPType.size).getD k 0) a) →
        res.getD k bufferDflt a = outs.getD k bufferDflt a) ∧
    (∀ (Ctx : Type) (f : SharedFunction Ctx) (indices : List Nat)
        (bufs bufs' outs : List Buffer) (c : Ctx),
      bufs.length = bufs'.length →
      InputsAgree (f.input_types.map CPPType.size) bufs bufs' indices →
      (tupleStrategyOf f).call indices bufs outs c
        = (tupleStrategyOf f).call indices bufs' outs c) ∧
    (∀ (Ctx : Type) (b : LLVMBodyFn Ctx) (tysIn tysOut : List CPPType)
        (strat : LLVMArrayExecution Ctx),
      get_precompiled_array_execution (llvmOnlyDescriptor b tysIn tysOut) = some strat →
      WellSizedLLVMBody b (tysOut.map CPPType.size) →
      ∀ (indices : List Nat) (ins outs : List Buffer) (c : Ctx) (res : List Buffer) (cn : Ctx),
        strat.call indices ins outs c = .ok res cn →
        ∀ k a, (∀ i ∈ indices, OutsideRegion i ((tysOut.map CPPType.size).getD k 0) a) →
          res.getD k bufferDflt a = outs.getD k bufferDflt a) ∧
    (∀ (Ctx : Type) (b : LLVMBodyFn Ctx) (tysIn tysOut : List CPPType)
        (strat : LLVMArrayExecution Ctx),
      get_precompiled_array_execution (llvmOnlyDescriptor b tysIn tysOut) = some strat →
      ∀ (indices : List Nat) (bufs bufs' outs : List Buffer) (c : Ctx),
        bufs.length = bufs'.length →
        InputsAgree (tysIn.map CPPType.size) bufs bufs' indices →
        strat.call indices bufs outs c = strat.call indices bufs' outs c) ∧
    (∀ (Ctx : Type) (f : SharedFunction Ctx) (b : TupleCallBody Ctx)
        (ins outs : List Buffer) (c : Ctx),
      f.tuple_call_body = some b →
      f.input_amount = ins.length → f.output_amount = outs.length →
      (tupleStrategyOf f).call [] ins outs c = .ok outs c) ∧
    (∀ (Ctx : Type) (f : SharedFunction Ctx) (strat : LLVMArrayExecution Ctx)
        (ins outs : List Buffer) (c : Ctx),
      get_precompiled_array_execution f = some strat →
      strat.call [] ins outs c = .ok outs c) := by
  refine ⟨?_, ?_, ?_, ?_, ?_, ?_⟩
  · intro Ctx b tysIn tysOut indices ins outs c res hws hres k a hout
    by_cases har : (tupleOnlyDescriptor b tysIn tysOut : SharedFunction Ctx).input_amount
        = ins.length ∧
        (tupleOnlyDescriptor b tysIn tysOut : SharedFunction Ctx).output_amount = outs.length
    · rw [tupleCall_unfold rfl indices ins outs c har, match_outputs] at hres
      rw [show (tupleOnlyDescriptor b tysIn tysOut : SharedFunction Ctx).output_amount
          = ((tupleOnlyDescriptor b tysIn tysOut : SharedFunction Ctx).output_types.map
            CPPType.size).length from by
        simp [tupleOnlyDescriptor, SharedFunction.output_amount]] at hres
      exact tupleFold_outside hws indices _ outs c res hres k a hout
    · rw [tupleCall_assert _ indices ins outs c har] at hres
      exact absurd hres (by simp [ExecResult.outputs])
  · intro Ctx f indices bufs bufs' outs c hlen hag
    exact tupleCall_congr f hlen indices hag outs c
  · intro Ctx b tysIn tysOut strat hctor hws indices ins outs c res cn hcall
    obtain ⟨body, hb, hs⟩ := llvmCtor_inv hctor
    have hbody : body = b := by
      simp only [llvmOnlyDescriptor, Option.some.injEq] at hb
      exact hb.symm
    subst hbody
    subst hs
    simp only [LLVMArrayExecution.call] at hcall
    simp only [ExecResult.ok.injEq] at hcall
    obtain ⟨hres, _⟩ := hcall
    intro k a hout
    rw [← hres, generatedFunction_foldl]
    exact llvmFold_outside hws indices outs c k a hout
  · intro Ctx b tysIn tysOut strat hctor indices bufs bufs' outs c hlen hag
    obtain ⟨body, hb, hs⟩ := llvmCtor_inv hctor
    subst hs
    have hgen : generatedFunction body
          ((llvmOnlyDescriptor b tysIn tysOut : SharedFunction Ctx).input_types.map
            CPPType.size)
          ((llvmOnlyDescriptor b tysIn tysOut : SharedFunction Ctx).output_types.map
            CPPType.size) indices.length indices bufs outs c
        = generatedFunction body
          ((llvmOnlyDescriptor b tysIn tysOut : SharedFunction Ctx).input_types.map
            CPPType.size)
          ((llvmOnlyDescriptor b tysIn tysOut : SharedFunction Ctx).output_types.map
            CPPType.size) indices.length indices bufs' outs c := by
      rw [generatedFunction_foldl, generatedFunction_foldl]
      exact llvmFold_congr hlen indices hag (outs, c)
    rw [llvmCall_unfold, llvmCall_unfold]
    rw [show (LLVMArrayExecution.mk (ArrayExecution.make (llvmOnlyDescriptor b tysIn tysOut))
        ⟨generatedFunction body
          ((llvmOnlyDescriptor b tysIn tysOut : SharedFunction Ctx).input_types.map
            CPPType.size)
          ((llvmOnlyDescriptor b tysIn tysOut : SharedFunction Ctx).output_types.map
            CPPType.size)⟩).m_compiled_function.function_ptr
        = generatedFunction body
          ((llvmOnlyDescriptor b tysIn tysOut : SharedFunction Ctx).input_types.map
            CPPType.size)
          ((llvmOnlyDescriptor b tysIn tysOut : SharedFunction Ctx).output_types.map
            CPPType.size) from rfl, hgen]
  · intro Ctx f b ins outs c hb h1 h2
    rw [tupleCall_unfold hb [] ins outs c ⟨h1, h2⟩]
    rfl
  · intro Ctx f strat ins outs c hctor
    obtain ⟨body, hb, hs⟩ := llvmCtor_inv hctor
    subst hs
    rfl

/-- Witness for C2: a one-index call leaves byte 7 of the output buffer at
its initial value, and the empty-index call returns the buffers untouched. -/
theorem claim_C2_witness :
    ((tupleStrategyOf (tupleOnlyDescriptor
        (fun (c : Unit) _ => some (c, [[9]])) [⟨1⟩] [⟨1⟩])).call
        [0] [fun _ => 3] [fun _ => 5] ()).outputs = some [writeBytes (fun _ => 5) 0 [9]] ∧
    ([writeBytes (fun _ => 5) 0 [9]] : List Buffer).getD 0 bufferDflt 7
      = ([fun _ => 5] : List Buffer).getD 0 bufferDflt 7 ∧
    (tupleStrategyOf (tupleOnlyDescriptor
        (fun (c : Unit) _ => some (c, [[9]])) [⟨1⟩] [⟨1⟩])).call
        [] [fun _ => 3] [fun _ => 5] () = .ok [fun _ => 5] () := by
  refine ⟨by rfl, ?_, ?_⟩
  · exact claim_C2.1 Unit (fun c _ => some (c, [[9]])) [⟨1⟩] [⟨1⟩] [0]
      [fun _ => 3] [fun _ => 5] () [writeBytes (fun _ => 5) 0 [9]]
      (by
        intro c ins c' outs h
        simp only [Option.some.injEq, Prod.mk.injEq] at h
        rw [← h.2]
        exact List.Forall₂.cons rfl List.Forall₂.nil)
      (by rfl) 0 7 (by decide)
  · exact claim_C2.2.2.2.2.1 Unit
      (tupleOnlyDescriptor (fun (c : Unit) _ => some (c, [[9]])) [⟨1⟩] [⟨1⟩]) _
      [fun _ => 3] [fun _ => 5] () rfl rfl rfl

/-- C5: executing twice with the same index set and the same input buffer
contents against fresh output buffers yields identical output contents both
times, for both strategies, when the body is a pure well-sized
input-to-output mapping: each run returns normally with an output list
depending only on the indices, the inputs and the initial output contents
(no hidden state), and the bytes left in the element regions of the
processed indices — the bytes `execute` is specified to produce — are the
same in both runs even when the fresh output buffers start with different
contents. -/
theorem claim_C5 {Ctx : Type} (g : List (List Nat) → List (List Nat))
    (tysIn tysOut : List CPPType)
    (stratT : TupleCallArrayExecution Ctx) (stratL : LLVMArrayExecution Ctx)
    (hT : get_tuple_call_array_execution (pureDescriptor g tysIn tysOut) = some stratT)
    (hL : get_precompiled_array_execution (pureDescriptor g tysIn tysOut) = some stratL)
    (indices : List Nat) (ins outs outs' : List Buffer) (ctx : Ctx)
    (hin : ins.length = tysIn.length)
    (hout : outs.length = tysOut.length) (hout' : outs'.length = tysOut.length)
    (hg : ∀ x, List.Forall₂ (fun v (t : CPPType) => v.length = t.size) (g x) tysOut) :
    ∃ r r', stratT.call indices ins outs ctx = .ok r ctx ∧
      stratT.call indices ins outs' ctx = .ok r' ctx ∧
      stratL.call indices ins outs ctx = .ok r ctx ∧
      stratL.call indices ins outs' ctx = .ok r' ctx ∧
      ∀ k, k < tysOut.length → ∀ i ∈ indices,
        readBytes (r.getD k bufferDflt) (i * (tysOut.map CPPType.size).getD k 0)
            ((tysOut.map CPPType.size).getD k 0)
          = readBytes (r'.getD k bufferDflt) (i * (tysOut.map CPPType.size).getD k 0)
            ((tysOut.map CPPType.size).getD k 0) := by
  have hglen : ∀ x, (g x).length = tysOut.length := fun x => (hg x).length_eq
  have hTs : stratT = tupleStrategyOf (pureDescriptor g tysIn tysOut) := by
    simp only [get_tuple_call_array_execution, pureDescriptor, Option.some.injEq] at hT
    exact hT.symm
  obtain ⟨bodyL, hbL, hsL⟩ := llvmCtor_inv hL
  have hbodyL : bodyL = pureLLVMBody g := by
    simp only [pureDescriptor, Option.some.injEq] at hbL
    exact hbL.symm
  subst hbodyL
  subst hTs
  subst hsL
  refine ⟨pureBatch g (tysIn.map CPPType.size) (tysOut.map CPPType.size) ins indices outs,
    pureBatch g (tysIn.map CPPType.size) (tysOut.map CPPType.size) ins indices outs',
    tupleCall_pure g tysIn tysOut indices ins outs ctx hin hout hglen,
    tupleCall_pure g tysIn tysOut indices ins outs' ctx hin hout' hglen, ?_, ?_, ?_⟩
  · rw [show List.map CPPType.size (pureDescriptor g tysIn tysOut : SharedFunction Ctx).input_types
        = List.map CPPType.size tysIn from rfl,
      show List.map CPPType.size (pureDescriptor g tysIn tysOut : SharedFunction Ctx).output_types
        = List.map CPPType.size tysOut from rfl,
      llvmCall_pure g (tysIn.map CPPType.size) (tysOut.map CPPType.size) _
        indices ins outs ctx]
  · rw [show List.map CPPType.size (pureDescriptor g tysIn tysOut : SharedFunction Ctx).input_types
        = List.map CPPType.size tysIn from rfl,
      show List.map CPPType.size (pureDescriptor g tysIn tysOut : SharedFunction Ctx).output_types
        = List.map CPPType.size tysOut from rfl,
      llvmCall_pure g (tysIn.map CPPType.size) (tysOut.map CPPType.size) _
        indices ins outs' ctx]
  · intro k hk i hi
    exact pureBatch_region (fun x => forall₂_map_sizes (hg x)) indices outs outs'
      (by simpa using hout) (by simpa using hout') i hi k (by simpa using hk)

/-- Witness for C5 at a concrete pure descriptor: two runs against fresh
output buffers with different initial contents leave the same bytes in the
processed region. -/
theorem claim_C5_witness :
    readBytes (([writeBytes (fun _ => 1) 0 [7]] : List Buffer).getD 0 bufferDflt)
        (0 * (List.map CPPType.size [⟨1⟩]).getD 0 0) ((List.map CPPType.size [⟨1⟩]).getD 0 0)
      = readBytes (([writeBytes (fun _ => 2) 0 [7]] : List Buffer).getD 0 bufferDflt)
        (0 * (List.map CPPType.size [⟨1⟩]).getD 0 0)
        ((List.map CPPType.size [⟨1⟩]).getD 0 0) := by
  obtain ⟨r, r', h1, h2, h3, h4, h5⟩ := claim_C5 (fun _ => [[7]]) [⟨1⟩] [⟨1⟩] _ _ rfl rfl
    [0] [fun _ => 9] [fun _ => 1] [fun _ => 2] () rfl rfl rfl
    (fun _ => List.Forall₂.cons rfl List.Forall₂.nil)
  have hr : ExecResult.ok r () = ExecResult.ok ([writeBytes (fun _ => 1) 0 [7]] : List Buffer) () :=
    h1.symm.trans (by rfl)
  have hr' : ExecResult.ok r' () = ExecResult.ok ([writeBytes (fun _ => 2) 0 [7]] : List Buffer) () :=
    h2.symm.trans (by rfl)
  simp only [ExecResult.ok.injEq] at hr hr'
  have h6 := h5 0 (by decide) 0 (by decide)
  rw [hr.1, hr'.1] at h6
  exact h6

end FN
